import Mathlib

/-!
Shallow embedding of `src/primes.py` from lackofcheese/CodeJamLib:
the `Primes32` incremental sieve table and the factorization routines
`pf`, `factor_pairs` and `factors`, together with theorems settling the
frozen claims about them.
-/

namespace CodeJamLib

/-! ## Constants of `Primes32` (src/primes.py lines 20-23) -/

/-- `MAX_DELTA = 10**8`. -/
def MAX_DELTA : Nat := 10 ^ 8

/-- `MAX_END = 2**32+1`. -/
def MAX_END : Nat := 2 ^ 32 + 1

/-- `MAX_NP = 203280221`. -/
def MAX_NP : Nat := 203280221

/-- Python exceptions that the modelled paths can raise. -/
inductive PyErr where
  | indexError
  | valueError
  deriving Repr, DecidableEq

/-- The state of a `Primes32` object.  `data` models the meaningful prefix
`self.data[0:self._np]` of the preallocated numpy buffer (so `self._np`
is `data.length`), `capacity` the allocated buffer size, and `end_` the
field `self._end`. -/
structure Primes32 where
  data : List Nat
  capacity : Nat
  end_ : Nat
  deriving Repr, DecidableEq

/-- `self._np`, the number of valid entries. -/
def Primes32.np (s : Primes32) : Nat := s.data.length

/-- `len(self)` (src/primes.py line 64). -/
def Primes32.len (s : Primes32) : Nat := s.np

/-! ## The segmented sieve (`Primes32._extend`, src/primes.py lines 151-185) -/

/-- Read of `is_prime[i]` (in-range in all executed paths). -/
def maskGet (m : List Bool) (i : Nat) : Bool := m.getD i false

/-- The numpy slice assignment `is_prime[b::p] = False`: every index
`j = b + k*p` (for `k ≥ 0`) within the mask is cleared. -/
def markMask (m : List Bool) (b p : Nat) : List Bool :=
  m.mapIdx fun j v => if b ≤ j ∧ (j - b) % p = 0 then false else v

/-- `first = max(((start+p-1) // (2*p) * 2 + 1), p) * p` (line 179). -/
def firstMultiple (start p : Nat) : Nat :=
  max ((start + p - 1) / (2 * p) * 2 + 1) p * p

/-- The `for p in it.chain(...)` loop of one sieve segment
(lines 172-180), recursing over the eliminator sequence: stop at the
first `p` with `p*p >= stop`; skip a candidate already marked composite;
otherwise clear the multiples of `p` from `firstMultiple start p` on. -/
def sieveLoop (start stop : Nat) : List Nat → List Bool → List Bool
  | [], m => m
  | p :: ps, m =>
    if stop ≤ p * p then m
    else if start ≤ p ∧ maskGet m ((p - start) / 2) = false then
      sieveLoop start stop ps m
    else
      sieveLoop start stop ps (markMask m ((firstMultiple start p - start) / 2) p)

/-- The eliminator sequence of a segment:
`it.chain(self.data[1:self._np], it.islice(it.count(start, 2), length))`. -/
def elims (data : List Nat) (start length : Nat) : List Nat :=
  data.drop 1 ++ (List.range length).map fun i => start + 2 * i

/-- One iteration of the `while self._end < limit` loop (lines 166-185).
The numpy assignment `self.data[self._np:new_np] = new_primes` raises a
`ValueError` if the new count overflows the allocated buffer. -/
def segmentStep (limit : Nat) (s : Primes32) : Except PyErr Primes32 :=
  let start := s.end_
  let stop0 := min limit (min (start + MAX_DELTA) MAX_END)
  let stop := stop0 + (1 - stop0 % 2)
  let length := (stop - start) / 2
  let mask := sieveLoop start stop (elims s.data start length) (List.replicate length true)
  let newPrimes := ((List.range length).filter fun i => maskGet mask i).map fun i => start + 2 * i
  if s.capacity < s.data.length + newPrimes.length then .error .valueError
  else .ok ⟨s.data ++ newPrimes, s.capacity, stop⟩

/-- The `while self._end < limit` loop, driven by fuel.  Each iteration
strictly increases `end_`, so fuel `limit` always suffices (proved below);
the fuel parameter is only the standard embedding of the while loop. -/
def extendLoop (limit : Nat) : Nat → Primes32 → Except PyErr Primes32
  | 0, s => .ok s
  | fuel + 1, s =>
    if s.end_ < limit then (segmentStep limit s).bind (extendLoop limit fuel)
    else .ok s

/-- `int(self.GF*self._end)` where `GF = 1.2`.  For every `end_` in the
reachable range (at most `2^32+1`) the Python double computation
`int(1.2*end)` coincides with `6*end/5` in integer arithmetic: the
relative error of the rounded constant `1.2` and of the product is below
`2^-51`, far smaller than the distance `0.2` from `1.2*end` to the next
integer boundary when `5 ∤ end`, and when `5 ∣ end` the product rounds
back up to the exact integer `6*end/5`. -/
def gfScaled (e : Nat) : Nat := 6 * e / 5

/-- `Primes32._extend(self, limit=None)` (src/primes.py lines 151-185). -/
def Primes32.extend (s : Primes32) (limitOpt : Option Nat) : Except PyErr Primes32 :=
  match limitOpt with
  | some l =>
    if l ≤ s.end_ then .ok s
    else if MAX_END < l ∨ s.end_ = MAX_END then .error .indexError
    else
      let limit := max l (min (s.end_ + MAX_DELTA) (min (gfScaled s.end_ + 1) MAX_END))
      extendLoop limit limit s
  | none =>
    if MAX_END < 0 ∨ s.end_ = MAX_END then .error .indexError
    else
      let limit := max 0 (min (s.end_ + MAX_DELTA) (min (gfScaled s.end_ + 1) MAX_END))
      extendLoop limit limit s

/-! ## Construction (`Primes32.__init__`, src/primes.py lines 25-60) -/

/-- The from-scratch branch of `__init__` (lines 46-53): allocate
`capacity` zeros (writing `data[0] = 2` raises an `IndexError` when the
buffer is empty), set `count = 1`, `end = 3`, then `_extend(init_max)`. -/
def Primes32.initScratch (init_max capacity : Nat) : Except PyErr Primes32 :=
  if capacity = 0 then .error .indexError
  else Primes32.extend ⟨[2], capacity, 3⟩ (some init_max)

/-- `__init__` (lines 35-53), with the result of `np.load` made explicit:
`some snap` models a successful load of the stored array, `none` an
`IOError` (missing file), which falls through to the scratch build.
On a successful load the code adopts the array as-is: `count` is its
length, `end` is `data[-1] + 2` (an `IndexError`, uncaught, if the array
is empty).  No validation of the contents is performed. -/
def Primes32.init (snapshot : Option (List Nat)) (init_max capacity : Nat) :
    Except PyErr Primes32 :=
  match snapshot with
  | some snap =>
    if snap.isEmpty then .error .indexError
    else .ok ⟨snap, snap.length, snap.getLastD 0 + 2⟩
  | none => Primes32.initScratch init_max capacity

/-- `np.save(primes_path, self.data)` (line 56) writes the whole
allocated buffer: the meaningful prefix followed by the untouched zero
padding up to `capacity`. -/
def Primes32.save (s : Primes32) : List Nat :=
  s.data ++ List.replicate (s.capacity - s.data.length) 0

/-! ## Queries (src/primes.py lines 101-149) -/

/-- The `while hi - lo > 1` binary-search loop of `_insert_pos`
(lines 128-139), driven by fuel (`hi - lo` shrinks every iteration, so
fuel `hi - lo` suffices). -/
def ipLoop (data : List Nat) (n : Int) : Nat → Nat → Nat → Nat
  | 0, _, hi => hi
  | fuel + 1, lo, hi =>
    if 1 < hi - lo then
      let mid := (lo + hi) / 2
      let val := data.getD mid 0
      if (val : Int) = n then mid
      else if (val : Int) < n then ipLoop data n fuel mid hi
      else ipLoop data n fuel lo mid
    else hi

/-- `Primes32._insert_pos` (lines 122-139). -/
def Primes32.insert_pos (s : Primes32) (n : Int) : Nat :=
  if n ≤ 2 then 0 else ipLoop s.data n s.data.length 0 s.data.length

/-- `Primes32.__contains__` (lines 101-110); returns the possibly grown
table together with the boolean answer. -/
def Primes32.contains (s : Primes32) (n : Int) : Except PyErr (Primes32 × Bool) :=
  match (if (s.end_ : Int) < n then s.extend (some (n.toNat + 1)) else .ok s) with
  | .error e => .error e
  | .ok s1 =>
    .ok (s1, decide (s1.insert_pos n < s1.np) &&
      decide ((s1.data.getD (s1.insert_pos n) 0 : Int) = n))

/-- `Primes32.ip` (lines 112-120). -/
def Primes32.ip (s : Primes32) (n : Int) : Except PyErr (Primes32 × Nat) :=
  match (if (s.end_ : Int) < n then s.extend (some (n.toNat + 1)) else .ok s) with
  | .error e => .error e
  | .ok s1 => .ok (s1, s1.insert_pos n)

/-- `Primes32.between` (lines 141-149). -/
def Primes32.between (s : Primes32) (start stop : Int) :
    Except PyErr (Primes32 × List Nat) :=
  match (if (s.end_ : Int) < stop then s.extend (some stop.toNat) else .ok s) with
  | .error e => .error e
  | .ok s1 => .ok (s1, (s1.data.take (s1.insert_pos stop)).drop (s1.insert_pos start))

/-! ## `pf` — prime factorization (src/primes.py lines 240-264) -/

/-- Python `int.bit_length()` on a non-negative integer. -/
def bit_length (k : Nat) : Nat := if k = 0 then 0 else Nat.log2 k + 1

/-- Python `n & -n` for a positive integer `n`: the lowest set bit.  On
unbounded two's complement this equals `n - (n &&& (n - 1))` (clearing
the lowest set bit and subtracting), which is how we render it in `Nat`,
where `-n` does not exist. -/
def lowBit (n : Nat) : Nat := n - (n &&& (n - 1))

/-- The `while n % p == 0: n //= p; count += 1` loop (lines 256-259),
returning `(count, n')`.  Fuel `n` suffices since each division at least
halves `n ≥ 1`. -/
def stripFactor (p : Nat) : Nat → Nat → Nat × Nat
  | 0, n => (0, n)
  | fuel + 1, n =>
    if n % p = 0 then
      let r := stripFactor p fuel (n / p)
      (r.1 + 1, r.2)
    else (0, n)

/-- The `for p in tests` trial-division loop of `pf` (lines 253-263),
including the final `if n > 1: factors.append((n, 1))`.  The candidate
stream `tests` is drawn at successive indices; the fuel bounds the number
of draws (for a strictly ascending stream of values `≥ 2`, `n + 1` draws
always reach the `p * p > n` break, proved below). -/
def pfLoop (tests : Nat → Nat) : Nat → Nat → Nat → List (Nat × Nat)
  | 0, _, n => if 1 < n then [(n, 1)] else []
  | fuel + 1, i, n =>
    let p := tests i
    if n < p * p then (if 1 < n then [(n, 1)] else [])
    else
      let r := stripFactor p n n
      (if 0 < r.1 then [(p, r.1)] else []) ++ pfLoop tests fuel (i + 1) r.2

/-- `pf(n, tests)` (lines 240-264) for a non-negative `n`: strip the
power of two read off the lowest set bit, then trial-divide by the
candidate stream. -/
def pf (n : Nat) (tests : Nat → Nat) : List (Nat × Nat) :=
  if n ≤ 1 then []
  else
    let e := bit_length (lowBit n) - 1
    let n1 := n >>> e
    (if 0 < e then [(2, e)] else []) ++ pfLoop tests (n1 + 1) 0 n1

/-- `pf` on a Python `int`, which may be negative: the `n <= 1` early
return covers every negative input, and on `n ≥ 2` the arithmetic is the
natural-number computation above. -/
def pfZ (n : Int) (tests : Nat → Nat) : List (Int × Nat) :=
  if n ≤ 1 then []
  else (pf n.toNat tests).map fun pe => ((pe.1 : Int), pe.2)

/-! ## `factor_pairs` (src/primes.py lines 202-238) -/

/-- One odometer digit of `factor_pairs`: the prime `p` with its maximal
exponent `mp` (from `pfs`), the current exponents `pa = pfa[i][1]` and
`pb = pfb[i][1]`, and the cached `values[i]`. -/
structure FPDigit where
  p : Int
  mp : Nat
  pa : Nat
  pb : Nat
  value : Int
  deriving Repr, DecidableEq

/-- The yielded item `((a, pfa), (b, pfb))` of `factor_pairs`. -/
def FPYield := (Int × List (Int × Nat)) × (Int × List (Int × Nat))

instance : DecidableEq FPYield := by unfold FPYield; infer_instance

/-- The `for i, (p, mp) in enumerate(pfs)` increment loop of
`factor_pairs` (lines 223-238): move one copy of the first prime with
remaining capacity from `b` to `a` (`break`), resetting exhausted digits
on the way (`else` branch); `none` models the `return` when the last
digit has no capacity left.  An empty digit list falls off the `for`
loop with nothing changed, so the `while True` spins forever: that is
`some` of the unchanged state. -/
def fpInc : List FPDigit → Int → Int → Option (List FPDigit × Int × Int)
  | [], a, b => some ([], a, b)
  | d :: ds, a, b =>
    if 0 < d.pb then
      some (⟨d.p, d.mp, d.pa + 1, d.pb - 1, d.value * d.p⟩ :: ds, a * d.p, b.fdiv d.p)
    else if ds.isEmpty then none
    else
      (fpInc ds (a.fdiv d.value) (b * d.value)).map
        fun r => (⟨d.p, d.mp, 0, d.mp, 1⟩ :: r.1, r.2)

/-- The conditional `yield` at the top of the `while True` loop
(lines 220-222). -/
def fpYield (ordered : Bool) (ds : List FPDigit) (a b : Int) : List FPYield :=
  if ordered || a ≤ b then
    [((a, ds.map fun d => (d.p, d.pa)), (b, ds.map fun d => (d.p, d.pb)))]
  else []

/-- The `while True` loop of `factor_pairs`, driven by fuel: `none`
means the fuel ran out before the generator returned, `some ys` a
completed run with `ys` the list of yielded items. -/
def fpRun (ordered : Bool) : Nat → List FPDigit → Int → Int → Option (List FPYield)
  | 0, _, _, _ => none
  | fuel + 1, ds, a, b =>
    let ys := fpYield ordered ds a b
    match fpInc ds a b with
    | none => some ys
    | some st => (fpRun ordered fuel st.1 st.2.1 st.2.2).map (ys ++ ·)

/-- The odometer start state: `pfa` all zero, `pfb` at the maximal
exponents, `values` all 1 (lines 215-217). -/
def fpStart (pfs : List (Int × Nat)) : List FPDigit :=
  pfs.map fun pm => ⟨pm.1, pm.2, 0, pm.2, 1⟩

/-- `factor_pairs(n, pfs, ordered)` (lines 202-238), as the list of all
yielded items of the generator; `none` when the given fuel does not
complete the run (in particular when the run never terminates). -/
def factor_pairs (n : Int) (pfs : List (Int × Nat)) (ordered : Bool) (fuel : Nat) :
    Option (List FPYield) :=
  if n = 0 then some []
  else if n = 1 then some [((1, []), (1, []))]
  else fpRun ordered fuel (fpStart pfs) 1 n

/-- `factors(n, pfs)` (src/primes.py lines 194-200): the `a` components
of the ordered factor pairs, sorted ascending. -/
def factors (n : Int) (pfs : List (Int × Nat)) (fuel : Nat) : Option (List Int) :=
  (factor_pairs n pfs true fuel).map fun l => (l.map fun y => y.1.1).insertionSort (· ≤ ·)

/-- Round up to an odd number: the effect of `stop += 1 - stop%2`. -/
def oddify (x : Nat) : Nat := x + (1 - x % 2)

/-- The table built from scratch with initial frontier 100 (and the
default capacity). -/
def table100 : Primes32 :=
  ⟨[2, 3, 5, 7, 11, 13, 17, 19, 23, 29, 31, 37, 41, 43, 47, 53, 59,
    61, 67, 71, 73, 79, 83, 89, 97], MAX_NP, 101⟩

/-- Soundness of a sieve mask: a cleared cell always holds a number that
is not prime. -/
def SoundMask (start : Nat) (m : List Bool) : Prop :=
  ∀ i < m.length, maskGet m i = false → ¬ Nat.Prime (start + 2 * i)

/-! ## Abstractions used to reason about the `factor_pairs` odometer -/

/-- The digit state determined by the radix entry `pm` and the current
exponent `e` of `a` (so `b` carries the remaining `pm.2 - e`). -/
def digitOf (pm : Int × Nat) (e : Nat) : FPDigit :=
  ⟨pm.1, pm.2, e, pm.2 - e, pm.1 ^ e⟩

/-- The digit list corresponding to an exponent vector. -/
def encodeVec (pfs : List (Int × Nat)) (v : List Nat) : List FPDigit :=
  List.zipWith digitOf pfs v

/-- The `a` component determined by an exponent vector. -/
def aVal (pfs : List (Int × Nat)) (v : List Nat) : Int :=
  (List.zipWith (fun pm e => pm.1 ^ e) pfs v).prod

/-- The `b` component determined by an exponent vector. -/
def bVal (pfs : List (Int × Nat)) (v : List Nat) : Int :=
  (List.zipWith (fun pm e => pm.1 ^ (pm.2 - e)) pfs v).prod

/-- Total number of exponent vectors (and of odometer yields). -/
def totalCount (pfs : List (Int × Nat)) : Nat :=
  (pfs.map fun pm => pm.2 + 1).prod

/-- Natural-number `a` component for a natural factorization. -/
def aValN (pfsN : List (Nat × Nat)) (v : List Nat) : Nat :=
  (List.zipWith (fun pm e => pm.1 ^ e) pfsN v).prod

/-- Natural-number `b` component for a natural factorization. -/
def bValN (pfsN : List (Nat × Nat)) (v : List Nat) : Nat :=
  (List.zipWith (fun pm e => pm.1 ^ (pm.2 - e)) pfsN v).prod

/-- The `Int`-valued radix list fed to `factor_pairs` for a natural
factorization (the shape produced by `pfZ`). -/
def pfsZof (pfsN : List (Nat × Nat)) : List (Int × Nat) :=
  pfsN.map fun pm => ((pm.1 : Int), pm.2)

/-- The mixed-radix digits of the counter value `t` (least significant
digit first, digit `k` running through `0..pfs[k].2`). -/
def decodeVec (pfs : List (Int × Nat)) (t : Nat) : List Nat :=
  match pfs with
  | [] => []
  | pm :: rest => t % (pm.2 + 1) :: decodeVec rest (t / (pm.2 + 1))

/-! ## The `Primes32` invariant -/

/-- The invariant of a `Primes32` table claimed by the specification:
the stored prefix is strictly increasing, starts at 2, holds exactly the
primes below the frontier, fits in the allocated capacity, and the
frontier stays within the 32-bit ceiling.  The frontier moreover is
always odd and at least 3, which the sieve relies on. -/
structure Valid (s : Primes32) : Prop where
  sorted : s.data.Sorted (· < ·)
  head : s.data.head? = some 2
  mem : ∀ p, p ∈ s.data ↔ Nat.Prime p ∧ p < s.end_
  odd : s.end_ % 2 = 1
  three : 3 ≤ s.end_
  cap : s.data.length ≤ s.capacity
  ceil : s.end_ ≤ MAX_END

/-! ## Claim C4: snapshot validation -/

/-- C4 counterexample: the constructor adopts a snapshot that is not
strictly ascending without any failure or rebuild — `np.load`'s result
is taken as-is, contradicting the claimed `PersistenceCorrupt`
validation. -/
theorem claim_C4_counterexample :
    Primes32.init (some [5, 3]) MAX_END MAX_NP = .ok ⟨[5, 3], 2, 5⟩ ∧
      ¬ List.Sorted (· < ·) [5, 3] := by
  constructor
  · rfl
  · intro h
    exact absurd (List.rel_of_sorted_cons h 3 (by simp)) (by norm_num)

/-- C4 amended: loading performs no content validation.  A successfully
read non-empty snapshot is adopted as-is (count = stored length,
frontier = last element + 2) whether or not it is ascending; an empty
snapshot raises an uncaught `IndexError` (fatal, no rebuild); only a
read failure (`IOError`, modelled by `none`) falls back to the scratch
rebuild. -/
theorem claim_C4 (snap : List Nat) (init_max capacity : Nat) (hne : snap ≠ []) :
    Primes32.init (some snap) init_max capacity =
        .ok ⟨snap, snap.length, snap.getLastD 0 + 2⟩ ∧
      Primes32.init (some []) init_max capacity = .error .indexError ∧
      Primes32.init none init_max capacity = Primes32.initScratch init_max capacity := by
  refine ⟨?_, rfl, rfl⟩
  simp [Primes32.init, hne]

/-- Witness for `claim_C4` at the concrete non-ascending snapshot. -/
theorem claim_C4_witness :
    Primes32.init (some [5, 3]) MAX_END MAX_NP = .ok ⟨[5, 3], 2, 5⟩ ∧
      Primes32.init (some []) MAX_END MAX_NP = .error .indexError ∧
      Primes32.init none MAX_END MAX_NP = Primes32.initScratch MAX_END MAX_NP := by
  simpa using claim_C4 [5, 3] MAX_END MAX_NP (by simp)

/-! ## Claim C3: persistence round-trip -/

/-- C3: the claim is the intended behaviour and the code violates it
(the spec's design notes flag exactly this as the historical persistence
bug).  `np.save(primes_path, self.data)` writes the whole fixed-capacity
buffer including the zero padding, not the `count`-entry prefix; on
reload, `count` becomes the padded length and `frontier` becomes
`0 + 2 = 2`.  Failing input: a table built from scratch with
`init_max = 100` and capacity 30: the table has 25 primes but the
snapshot holds 30 entries, and the reloaded table has frontier 2 and a
corrupt prime list, so `get`/`contains`/`between` results are not
preserved — `contains(3)` is `True` before the save and raises after
the reload (growth from frontier 2 overflows the exactly-sized loaded
buffer). -/
theorem claim_C3_theorem :
    ∃ s s' : Primes32,
      Primes32.initScratch 100 30 = .ok s ∧
      s.len = 25 ∧
      s.save.length = 30 ∧
      Primes32.init (some s.save) MAX_END 0 = .ok s' ∧
      s'.end_ = 2 ∧ s'.np = 30 ∧
      s.contains 3 = .ok (s, true) ∧
      s'.contains 3 = .error .valueError := by
  refine ⟨⟨[2, 3, 5, 7, 11, 13, 17, 19, 23, 29, 31, 37, 41, 43, 47, 53, 59,
      61, 67, 71, 73, 79, 83, 89, 97], 30, 101⟩,
    ⟨[2, 3, 5, 7, 11, 13, 17, 19, 23, 29, 31, 37, 41, 43, 47, 53, 59,
      61, 67, 71, 73, 79, 83, 89, 97, 0, 0, 0, 0, 0], 30, 2⟩,
    rfl, rfl, rfl, rfl, rfl, rfl, rfl, rfl⟩

/-! ## Mask lemmas -/

theorem length_markMask (m : List Bool) (b p : Nat) :
    (markMask m b p).length = m.length := by
  simp [markMask]

theorem maskGet_markMask (m : List Bool) (b p i : Nat) :
    maskGet (markMask m b p) i =
      if b ≤ i ∧ (i - b) % p = 0 then false else maskGet m i := by
  unfold maskGet markMask
  rw [List.getD_eq_getElem?_getD, List.getD_eq_getElem?_getD, List.getElem?_mapIdx]
  cases h : m[i]? with
  | none => by_cases hc : b ≤ i ∧ (i - b) % p = 0 <;> simp [hc]
  | some v => by_cases hc : b ≤ i ∧ (i - b) % p = 0 <;> simp [hc]

theorem maskGet_markMask_false {m : List Bool} {i : Nat} (b p : Nat)
    (h : maskGet m i = false) : maskGet (markMask m b p) i = false := by
  rw [maskGet_markMask]
  by_cases hc : b ≤ i ∧ (i - b) % p = 0 <;> simp [hc, h]

theorem length_sieveLoop (start stop : Nat) (E : List Nat) (m : List Bool) :
    (sieveLoop start stop E m).length = m.length := by
  induction E generalizing m with
  | nil => rfl
  | cons q rest ih =>
    rw [sieveLoop]
    split
    · rfl
    · split
      · exact ih m
      · rw [ih, length_markMask]

theorem sieveLoop_false_mono (start stop : Nat) (E : List Nat) {m : List Bool}
    {i : Nat} (h : maskGet m i = false) :
    maskGet (sieveLoop start stop E m) i = false := by
  induction E generalizing m with
  | nil => exact h
  | cons q rest ih =>
    rw [sieveLoop]
    split
    · exact h
    · split
      · exact ih h
      · exact ih (maskGet_markMask_false _ _ h)

/-! ## Arithmetic facts about `firstMultiple` -/

theorem firstMultiple_ge (start p : Nat) (hp : 0 < p) :
    start ≤ firstMultiple start p := by
  unfold firstMultiple
  set q := (start + p - 1) / (2 * p) with hq
  set r := (start + p - 1) % (2 * p) with hr
  have h0 : 2 * p * q + r = start + p - 1 := Nat.div_add_mod _ _
  have h1 : r < 2 * p := Nat.mod_lt _ (by omega)
  have h2 : start ≤ (q * 2 + 1) * p := by
    have hx : (q * 2 + 1) * p = 2 * p * q + p := by ring
    omega
  exact le_trans h2 (Nat.mul_le_mul_right _ (le_max_left _ _))

theorem firstMultiple_odd (start p : Nat) (hp : p % 2 = 1) :
    firstMultiple start p % 2 = 1 := by
  unfold firstMultiple
  rw [Nat.mul_mod]
  have h1 : max ((start + p - 1) / (2 * p) * 2 + 1) p % 2 = 1 := by
    rcases le_total ((start + p - 1) / (2 * p) * 2 + 1) p with h | h
    · rw [max_eq_right h]; exact hp
    · rw [max_eq_left h]; omega
  rw [h1, hp]

/-- The multiplier of `firstMultiple` is minimal: any odd multiplier `m`
with `start ≤ m * p` is at least `(start+p-1)/(2p)*2 + 1`. -/
theorem multiplier_min {start p m : Nat} (hp : 0 < p) (hm : m % 2 = 1)
    (hge : start ≤ m * p) : (start + p - 1) / (2 * p) * 2 + 1 ≤ m := by
  by_contra hlt
  push_neg at hlt
  set q := (start + p - 1) / (2 * p) with hq
  have hqb : q * (2 * p) ≤ start + p - 1 := Nat.div_mul_le_self _ _
  have hqb2 : q * (2 * p) < start + p := lt_of_le_of_lt hqb (by omega)
  have hm' : m + 2 ≤ q * 2 + 1 := by omega
  have h3 : (m + 2) * p ≤ (q * 2 + 1) * p := Nat.mul_le_mul_right p hm'
  nlinarith

/-- Every number sitting in a marked cell of `markMask` applied at
`firstMultiple start p` is a proper multiple of `p`, hence composite. -/
theorem marked_not_prime {start p i : Nat} (hstart : start % 2 = 1)
    (hp2 : p % 2 = 1) (hp3 : 3 ≤ p)
    (hb : (firstMultiple start p - start) / 2 ≤ i)
    (hmod : (i - (firstMultiple start p - start) / 2) % p = 0) :
    ¬ Nat.Prime (start + 2 * i) := by
  set f := firstMultiple start p with hf
  have hge : start ≤ f := firstMultiple_ge start p (by omega)
  have hodd : f % 2 = 1 := firstMultiple_odd start p hp2
  set b := (f - start) / 2 with hbdef
  have hfb : f = start + 2 * b := by omega
  obtain ⟨k, hk⟩ : ∃ k, i - b = p * k :=
    ⟨(i - b) / p, (Nat.mul_div_cancel' (Nat.dvd_of_mod_eq_zero hmod)).symm⟩
  have hi : i = b + p * k := by omega
  set M := max ((start + p - 1) / (2 * p) * 2 + 1) p with hM
  have hMp : f = M * p := rfl
  have hM3 : 3 ≤ M := le_trans hp3 (le_max_right _ _)
  have hnum : start + 2 * i = (M + 2 * k) * p := by
    have h1 : start + 2 * i = f + 2 * (p * k) := by omega
    rw [h1, hMp]; ring
  intro hpr
  rw [hnum] at hpr
  rcases hpr.eq_one_or_self_of_dvd p ⟨M + 2 * k, by ring⟩ with h1 | h2
  · omega
  · have h3 : 3 * p ≤ (M + 2 * k) * p := Nat.mul_le_mul_right p (by omega)
    omega

/-! ## Sieve loop soundness and completeness -/

theorem SoundMask_markMask {start : Nat} {m : List Bool} (h : SoundMask start m)
    {p : Nat} (hstart : start % 2 = 1) (hp2 : p % 2 = 1) (hp3 : 3 ≤ p) :
    SoundMask start (markMask m ((firstMultiple start p - start) / 2) p) := by
  intro i hi hfalse
  rw [length_markMask] at hi
  rw [maskGet_markMask] at hfalse
  by_cases hc : (firstMultiple start p - start) / 2 ≤ i ∧
      (i - (firstMultiple start p - start) / 2) % p = 0
  · exact marked_not_prime hstart hp2 hp3 hc.1 hc.2
  · rw [if_neg hc] at hfalse
    exact h i hi hfalse

theorem sieveLoop_sound {start stop : Nat} (hstart : start % 2 = 1) :
    ∀ (E : List Nat), (∀ q ∈ E, 3 ≤ q ∧ q % 2 = 1) →
      ∀ m, SoundMask start m → SoundMask start (sieveLoop start stop E m) := by
  intro E
  induction E with
  | nil => intro _ m hm; exact hm
  | cons q rest ih =>
    intro hall m hm
    have hq := hall q (List.mem_cons_self q rest)
    have hall' := fun x hx => hall x (List.mem_cons_of_mem q hx)
    rw [sieveLoop]
    split
    · exact hm
    · split
      · exact ih hall' m hm
      · exact ih hall' _ (SoundMask_markMask hm hstart hq.2 hq.1)

/-- A composite number in the segment is covered by the slice that its
divisor `p` marks. -/
theorem mark_covers {start p i : Nat} (hstart : start % 2 = 1) (hp2 : p % 2 = 1)
    (hp3 : 3 ≤ p) (hdvd : p ∣ (start + 2 * i)) (hle : p ≤ (start + 2 * i) / p) :
    (firstMultiple start p - start) / 2 ≤ i ∧
      (i - (firstMultiple start p - start) / 2) % p = 0 := by
  obtain ⟨m, hm⟩ := hdvd
  have hmle : p ≤ m := by
    rw [hm, Nat.mul_div_cancel_left m (by omega : 0 < p)] at hle
    exact hle
  have hmodd : m % 2 = 1 := by
    have hcm : (start + 2 * i) % 2 = (p % 2) * (m % 2) % 2 := by
      rw [hm, Nat.mul_mod]
    rw [hp2] at hcm
    omega
  have hmp : m * p = start + 2 * i := by rw [hm]; ring
  have hmin : (start + p - 1) / (2 * p) * 2 + 1 ≤ m :=
    multiplier_min (by omega) hmodd (by omega)
  set M := max ((start + p - 1) / (2 * p) * 2 + 1) p with hM
  have hmM : M ≤ m := max_le hmin hmle
  have hModd : M % 2 = 1 := by
    rcases le_total ((start + p - 1) / (2 * p) * 2 + 1) p with h | h
    · rw [hM, max_eq_right h]; exact hp2
    · rw [hM, max_eq_left h]; omega
  obtain ⟨k, hk⟩ : ∃ k, m = M + 2 * k := ⟨(m - M) / 2, by omega⟩
  have hf : firstMultiple start p = M * p := rfl
  have hfge : start ≤ firstMultiple start p := firstMultiple_ge _ _ (by omega)
  have hfodd : firstMultiple start p % 2 = 1 := firstMultiple_odd _ _ hp2
  have hceq : start + 2 * i = firstMultiple start p + 2 * (k * p) := by
    rw [hf, ← hmp, hk]; ring
  constructor
  · omega
  · have hkp : i - (firstMultiple start p - start) / 2 = k * p := by omega
    rw [hkp]
    exact Nat.mul_mod_left k p

/-- Completeness of the sieve loop: a composite number in the segment
whose witness divisor `p` appears in the (ascending, odd) eliminator
list with `p * p < stop` ends up marked. -/
theorem sieveLoop_marks {start stop : Nat} (hstart : start % 2 = 1) :
    ∀ (E : List Nat) (m : List Bool),
      List.Sorted (· < ·) E → (∀ q ∈ E, 3 ≤ q ∧ q % 2 = 1) →
      SoundMask start m → 2 * m.length + start = stop →
      ∀ p i, p ∈ E → p * p < stop → Nat.Prime p →
        p ∣ (start + 2 * i) → p ≤ (start + 2 * i) / p → i < m.length →
        maskGet (sieveLoop start stop E m) i = false := by
  intro E
  induction E with
  | nil =>
    intro m _ _ _ _ p i hp
    cases hp
  | cons q rest ih =>
    intro m hsort hall hsound hml p i hpE hpp hppr hdvd hle hi
    have hq3 := (hall q (List.mem_cons_self q rest)).1
    have hq2 := (hall q (List.mem_cons_self q rest)).2
    have hall' := fun x hx => hall x (List.mem_cons_of_mem q hx)
    have hsort' : List.Sorted (· < ·) rest := (List.sorted_cons.1 hsort).2
    have hqle : q ≤ p := by
      rcases List.mem_cons.1 hpE with rfl | hmem
      · exact le_refl p
      · exact le_of_lt (List.rel_of_sorted_cons hsort p hmem)
    have hqq : q * q < stop := lt_of_le_of_lt (Nat.mul_le_mul hqle hqle) hpp
    rw [sieveLoop, if_neg (by omega : ¬ stop ≤ q * q)]
    have hp2 : 2 ≤ p := hppr.two_le
    have hple : p ≤ p * p := by nlinarith
    by_cases hskip : start ≤ q ∧ maskGet m ((q - start) / 2) = false
    · rw [if_pos hskip]
      rcases List.mem_cons.1 hpE with rfl | hmem
      · -- p itself is a skipped candidate: but a prime cell is never false
        exfalso
        have hjlt : (p - start) / 2 < m.length := by omega
        have hnum : start + 2 * ((p - start) / 2) = p := by omega
        exact hsound _ hjlt hskip.2 (by rw [hnum]; exact hppr)
      · exact ih m hsort' hall' hsound hml p i hmem hpp hppr hdvd hle hi
    · rw [if_neg hskip]
      rcases List.mem_cons.1 hpE with rfl | hmem
      · -- p marks the composite now; the mark persists
        apply sieveLoop_false_mono
        rw [maskGet_markMask, if_pos (mark_covers hstart hq2 hq3 hdvd hle)]
      · exact ih _ hsort' hall'
          (SoundMask_markMask hsound hstart hq2 hq3)
          (by rw [length_markMask]; exact hml)
          p i hmem hpp hppr hdvd hle
          (by rw [length_markMask]; exact hi)

/-! ## Segment correctness -/

/-- After one segment's sieve loop, a cell is set exactly when its
number is prime, provided `data` holds exactly the primes below
`start`. -/
theorem segment_mask_spec {start stop : Nat} {data : List Nat}
    (hsorted : data.Sorted (· < ·)) (hhead : data.head? = some 2)
    (hmem : ∀ q, q ∈ data ↔ Nat.Prime q ∧ q < start)
    (hstart : start % 2 = 1) (h3 : 3 ≤ start)
    (hstop : stop % 2 = 1) (hlt : start < stop) :
    ∀ i < (stop - start) / 2,
      maskGet (sieveLoop start stop (elims data start ((stop - start) / 2))
          (List.replicate ((stop - start) / 2) true)) i = true ↔
        Nat.Prime (start + 2 * i) := by
  obtain ⟨tl, htl⟩ : ∃ tl, data = 2 :: tl := by
    cases data with
    | nil => simp at hhead
    | cons a tl =>
      simp only [List.head?_cons, Option.some.injEq] at hhead
      exact ⟨tl, by rw [hhead]⟩
  set len := (stop - start) / 2 with hlendef
  have hlen : 2 * len + start = stop := by omega
  have htl_mem : ∀ q ∈ tl, Nat.Prime q ∧ 2 < q ∧ q < start := by
    intro q hq
    have h1 := (hmem q).1 (htl ▸ List.mem_cons_of_mem 2 hq)
    have h2 : 2 < q := by
      have := List.rel_of_sorted_cons (htl ▸ hsorted) q hq
      exact this
    exact ⟨h1.1, h2, h1.2⟩
  have hall : ∀ q ∈ elims data start len, 3 ≤ q ∧ q % 2 = 1 := by
    intro q hq
    rcases List.mem_append.1 hq with hq1 | hq2
    · rw [htl] at hq1
      obtain ⟨hpr, h2q, _⟩ := htl_mem q hq1
      refine ⟨by omega, ?_⟩
      rcases Nat.Prime.eq_two_or_odd hpr with h | h
      · omega
      · exact h
    · obtain ⟨k, _, hk⟩ := List.mem_map.1 hq2
      omega
  have hsortE : List.Sorted (· < ·) (elims data start len) := by
    unfold elims
    refine List.pairwise_append.2 ⟨?_, ?_, ?_⟩
    · rw [htl]
      exact (List.sorted_cons.1 (htl ▸ hsorted)).2
    · rw [List.pairwise_map]
      exact (List.pairwise_lt_range len).imp (by omega)
    · intro x hx y hy
      rw [htl] at hx
      obtain ⟨_, _, hxs⟩ := htl_mem x hx
      obtain ⟨k, _, hk⟩ := List.mem_map.1 hy
      omega
  have hsound0 : SoundMask start (List.replicate len true) := by
    intro i hi hfalse
    rw [List.length_replicate] at hi
    rw [maskGet, List.getD_eq_getElem?_getD, List.getElem?_replicate,
      if_pos hi] at hfalse
    simp at hfalse
  have hml : 2 * (List.replicate len true).length + start = stop := by
    rw [List.length_replicate]; exact hlen
  intro i hi
  constructor
  · -- a surviving cell holds a prime
    intro htrue
    by_contra hnp
    have hc3 : 3 ≤ start + 2 * i := by omega
    have hc0 : 0 < start + 2 * i := by omega
    have hcodd : (start + 2 * i) % 2 = 1 := by omega
    have hclt : start + 2 * i < stop := by omega
    set p := (start + 2 * i).minFac with hp
    have hppr : Nat.Prime p := Nat.minFac_prime (by omega)
    have hdvd : p ∣ (start + 2 * i) := Nat.minFac_dvd _
    have hpsq : p * p ≤ start + 2 * i := by
      have := Nat.minFac_sq_le_self hc0 hnp
      rwa [pow_two] at this
    have hlediv : p ≤ (start + 2 * i) / p := Nat.minFac_le_div hc0 hnp
    have hpne2 : p ≠ 2 := by
      intro h2
      obtain ⟨t, ht⟩ := hdvd
      rw [h2] at ht
      omega
    have hp3 : 3 ≤ p := by
      have := hppr.two_le
      omega
    have hp2 : p % 2 = 1 := by
      rcases Nat.Prime.eq_two_or_odd hppr with h | h
      · omega
      · exact h
    have hple : p ≤ p * p := by nlinarith [hppr.two_le]
    have hppstop : p * p < stop := lt_of_le_of_lt hpsq hclt
    have hpE : p ∈ elims data start len := by
      rcases lt_or_ge p start with hps | hps
      · apply List.mem_append.2
        left
        have hpd : p ∈ data := (hmem p).2 ⟨hppr, hps⟩
        rw [htl] at hpd ⊢
        rcases List.mem_cons.1 hpd with h | h
        · omega
        · exact h
      · apply List.mem_append.2
        right
        apply List.mem_map.2
        refine ⟨(p - start) / 2, List.mem_range.2 (by omega), by omega⟩
    have := sieveLoop_marks hstart _ _ hsortE hall hsound0 hml p i hpE hppstop
      hppr hdvd hlediv (by rw [List.length_replicate]; exact hi)
    rw [htrue] at this
    cases this
  · -- a prime survives
    intro hpr
    by_contra hne
    have hfalse : maskGet (sieveLoop start stop (elims data start len)
        (List.replicate len true)) i = false := by
      cases h : maskGet (sieveLoop start stop (elims data start len)
          (List.replicate len true)) i
      · rfl
      · exact absurd h hne
    have hlen' : i < (sieveLoop start stop (elims data start len)
        (List.replicate len true)).length := by
      rw [length_sieveLoop, List.length_replicate]; exact hi
    exact sieveLoop_sound hstart _ hall _ hsound0 i hlen' hfalse hpr

/-- One sieve segment preserves the invariant; the new frontier is the
capped stop value rounded up to odd. -/
theorem segmentStep_spec {s : Primes32} {limit : Nat} (hv : Valid s)
    (hlt : s.end_ < limit) (hle : limit ≤ MAX_END) {s' : Primes32}
    (h : segmentStep limit s = .ok s') :
    Valid s' ∧ s'.capacity = s.capacity ∧
      s'.end_ = oddify (min limit (min (s.end_ + MAX_DELTA) MAX_END)) := by
  simp only [segmentStep] at h
  split at h
  · simp at h
  case isFalse hcap =>
    rw [Except.ok.injEq] at h
    subst h
    set start := s.end_ with hstartdef
    have hME : MAX_END % 2 = 1 := by norm_num [MAX_END]
    set stop0 := min limit (min (start + MAX_DELTA) MAX_END) with hstop0def
    have hstop0_gt : start < stop0 := by
      have h1 : start < start + MAX_DELTA := by norm_num [MAX_DELTA]
      have h2 : start < MAX_END := lt_of_lt_of_le hlt hle
      exact lt_min hlt (lt_min h1 h2)
    have hstop0_le : stop0 ≤ MAX_END :=
      le_trans (min_le_right _ _) (min_le_right _ _)
    set stop := stop0 + (1 - stop0 % 2) with hstopdef
    have hstop_odd : stop % 2 = 1 := by omega
    have hstop_gt : start < stop := by omega
    have hstop_le : stop ≤ MAX_END := by omega
    set len := (stop - start) / 2 with hlendef
    have hlen2 : 2 * len + start = stop := by
      have := hv.odd
      omega
    set mask := sieveLoop start stop (elims s.data start len)
      (List.replicate len true) with hmaskdef
    set newPrimes := ((List.range len).filter fun i => maskGet mask i).map
      fun i => start + 2 * i with hnpdef
    have hmask := segment_mask_spec hv.sorted hv.head hv.mem hv.odd hv.three
      hstop_odd hstop_gt
    have hnp_mem : ∀ q, q ∈ newPrimes ↔ Nat.Prime q ∧ start ≤ q ∧ q < stop := by
      intro q
      constructor
      · intro hq
        obtain ⟨i, hif, hiq⟩ := List.mem_map.1 hq
        obtain ⟨hir, hit⟩ := List.mem_filter.1 hif
        have hilt := List.mem_range.1 hir
        have hpr := (hmask i hilt).1 hit
        refine ⟨by rw [← hiq]; exact hpr, by omega⟩
      · rintro ⟨hpr, hge, hlt'⟩
        have hqodd : q % 2 = 1 := by
          rcases Nat.Prime.eq_two_or_odd hpr with h2 | h2
          · have := hv.three; omega
          · exact h2
        have hi : q = start + 2 * ((q - start) / 2) := by
          have := hv.odd; omega
        have hilt : (q - start) / 2 < len := by
          have := hv.odd; omega
        apply List.mem_map.2
        refine ⟨(q - start) / 2, List.mem_filter.2 ⟨List.mem_range.2 hilt, ?_⟩,
          by omega⟩
        exact (hmask _ hilt).2 (by rw [← hi]; exact hpr)
    refine ⟨⟨?_, ?_, ?_, ?_, ?_, ?_, ?_⟩, rfl, rfl⟩
    · -- sorted
      refine List.pairwise_append.2 ⟨hv.sorted, ?_, ?_⟩
      · rw [hnpdef, List.pairwise_map]
        exact (List.Pairwise.sublist (List.filter_sublist _)
          (List.pairwise_lt_range len)).imp (by omega)
      · intro x hx y hy
        have hx' := ((hv.mem x).1 hx).2
        have hy' := ((hnp_mem y).1 hy).2.1
        omega
    · -- head
      show (s.data ++ newPrimes).head? = some 2
      rw [List.head?_append, hv.head]
      rfl
    · -- membership
      intro q
      show q ∈ s.data ++ newPrimes ↔ Nat.Prime q ∧ q < stop
      rw [List.mem_append, hv.mem q, hnp_mem q]
      constructor
      · rintro (⟨h1, h2⟩ | ⟨h1, _, h3⟩)
        · exact ⟨h1, by omega⟩
        · exact ⟨h1, h3⟩
      · rintro ⟨h1, h2⟩
        rcases lt_or_ge q start with hcase | hcase
        · exact Or.inl ⟨h1, hcase⟩
        · exact Or.inr ⟨h1, hcase, h2⟩
    · exact hstop_odd
    · -- 3 ≤ stop
      have := hv.three
      show 3 ≤ stop
      omega
    · -- capacity
      show (s.data ++ newPrimes).length ≤ s.capacity
      rw [List.length_append]
      omega
    · exact hstop_le

/-! ## The extension loop and `extend` -/

theorem extendLoop_valid {limit : Nat} (hle : limit ≤ MAX_END) :
    ∀ (fuel : Nat) {s s' : Primes32}, Valid s →
      extendLoop limit fuel s = .ok s' → Valid s' := by
  intro fuel
  induction fuel with
  | zero =>
    intro s s' hv h
    rw [extendLoop, Except.ok.injEq] at h
    exact h ▸ hv
  | succ fuel ih =>
    intro s s' hv h
    rw [extendLoop] at h
    split at h
    case isTrue hlt =>
      cases hseg : segmentStep limit s with
      | error e => rw [hseg] at h; simp [Except.bind] at h
      | ok s1 =>
        rw [hseg] at h
        simp only [Except.bind] at h
        exact ih (segmentStep_spec hv hlt hle hseg).1 h
    case isFalse =>
      rw [Except.ok.injEq] at h
      exact h ▸ hv

theorem extendLoop_end {limit : Nat} (hle : limit ≤ MAX_END) :
    ∀ (fuel : Nat) {s s' : Primes32}, Valid s → s.end_ < limit →
      limit ≤ fuel + s.end_ → extendLoop limit fuel s = .ok s' →
      s'.end_ = oddify limit := by
  intro fuel
  induction fuel with
  | zero => intro s s' _ hlt hfuel _; omega
  | succ fuel ih =>
    intro s s' hv hlt hfuel h
    rw [extendLoop, if_pos hlt] at h
    cases hseg : segmentStep limit s with
    | error e => rw [hseg] at h; simp [Except.bind] at h
    | ok s1 =>
      rw [hseg] at h
      simp only [Except.bind] at h
      obtain ⟨hv1, _, hend1⟩ := segmentStep_spec hv hlt hle hseg
      rcases le_or_lt limit (s.end_ + MAX_DELTA) with hA | hB
      · have hstop0 : min limit (min (s.end_ + MAX_DELTA) MAX_END) = limit :=
          min_eq_left (le_min hA hle)
        rw [hstop0] at hend1
        have hge : limit ≤ s1.end_ := by rw [hend1]; unfold oddify; omega
        have hstay : extendLoop limit fuel s1 = .ok s1 := by
          cases fuel with
          | zero => rfl
          | succ f => rw [extendLoop, if_neg (by omega)]
        rw [hstay, Except.ok.injEq] at h
        rw [← h]
        exact hend1
      · have hΔME : s.end_ + MAX_DELTA ≤ MAX_END := by omega
        have hstop0 : min limit (min (s.end_ + MAX_DELTA) MAX_END) =
            s.end_ + MAX_DELTA := by
          rw [min_eq_left hΔME, min_eq_right (le_of_lt hB)]
        have hΔ : MAX_DELTA % 2 = 0 := by norm_num [MAX_DELTA]
        have hodd := hv.odd
        have hoddA : oddify (min limit (min (s.end_ + MAX_DELTA) MAX_END)) =
            s.end_ + MAX_DELTA := by
          rw [hstop0]; unfold oddify; omega
        rw [hoddA] at hend1
        have hΔ1 : 1 ≤ MAX_DELTA := by norm_num [MAX_DELTA]
        exact ih hv1 (by omega) (by omega) h

/-- `extend` keeps the invariant on every successful path. -/
theorem extend_valid {s : Primes32} (hv : Valid s) (lopt : Option Nat)
    {s' : Primes32} (h : s.extend lopt = .ok s') : Valid s' := by
  cases lopt with
  | some l =>
    rw [Primes32.extend] at h
    split at h
    · rw [Except.ok.injEq] at h
      exact h ▸ hv
    · split at h
      · simp at h
      case isFalse hP hQ =>
        have hlME : l ≤ MAX_END := by
          rcases not_or.1 hQ with ⟨h1, _⟩
          omega
        have hlim : max l (min (s.end_ + MAX_DELTA) (min (gfScaled s.end_ + 1)
            MAX_END)) ≤ MAX_END :=
          max_le hlME (le_trans (min_le_right _ _) (min_le_right _ _))
        exact extendLoop_valid hlim _ hv h
  | none =>
    rw [Primes32.extend] at h
    split at h
    · simp at h
    · have hlim : max 0 (min (s.end_ + MAX_DELTA) (min (gfScaled s.end_ + 1)
          MAX_END)) ≤ MAX_END :=
        max_le (Nat.zero_le _) (le_trans (min_le_right _ _) (min_le_right _ _))
      exact extendLoop_valid hlim _ hv h

/-- The fresh from-scratch state `data=[2], end=3` satisfies the
invariant. -/
theorem valid_start {c : Nat} (hc : 1 ≤ c) : Valid ⟨[2], c, 3⟩ := by
  refine ⟨List.sorted_singleton 2, rfl, ?_, ?_, ?_, ?_, ?_⟩
  case refine_2 => show (3 : Nat) % 2 = 1; rfl
  case refine_3 => show (3 : Nat) ≤ 3; exact le_refl 3
  case refine_4 => show [2].length ≤ c; simpa using hc
  case refine_5 => show (3 : Nat) ≤ MAX_END; norm_num [MAX_END]
  · intro p
    show p ∈ [2] ↔ Nat.Prime p ∧ p < 3
    constructor
    · intro hp
      rw [List.mem_singleton] at hp
      subst hp
      exact ⟨Nat.prime_two, by omega⟩
    · rintro ⟨hp, hlt⟩
      have := hp.two_le
      rw [List.mem_singleton]
      omega

theorem initScratch_valid {init_max capacity : Nat} {s : Primes32}
    (h : Primes32.initScratch init_max capacity = .ok s) : Valid s := by
  rw [Primes32.initScratch] at h
  split at h
  · simp at h
  case isFalse hc =>
    exact extend_valid (valid_start (by omega)) _ h

/-! ## Splitting the query wrappers -/

theorem contains_split {s : Primes32} {n : Int} {s' : Primes32} {b : Bool}
    (h : s.contains n = .ok (s', b)) :
    (((s.end_ : Int) < n ∧ s.extend (some (n.toNat + 1)) = .ok s') ∨
        (¬ (s.end_ : Int) < n ∧ s' = s)) ∧
      b = (decide (s'.insert_pos n < s'.np) &&
        decide ((s'.data.getD (s'.insert_pos n) 0 : Int) = n)) := by
  rw [Primes32.contains] at h
  by_cases hc : (s.end_ : Int) < n
  · rw [if_pos hc] at h
    cases hext : s.extend (some (n.toNat + 1)) with
    | error e => rw [hext] at h; simp at h
    | ok s1 =>
      rw [hext] at h
      simp only [Except.ok.injEq, Prod.mk.injEq] at h
      obtain ⟨h1, h2⟩ := h
      subst h1
      exact ⟨Or.inl ⟨hc, rfl⟩, h2.symm⟩
  · rw [if_neg hc] at h
    simp only [Except.ok.injEq, Prod.mk.injEq] at h
    obtain ⟨h1, h2⟩ := h
    subst h1
    exact ⟨Or.inr ⟨hc, rfl⟩, h2.symm⟩

theorem ip_split {s : Primes32} {n : Int} {s' : Primes32} {r : Nat}
    (h : s.ip n = .ok (s', r)) :
    (((s.end_ : Int) < n ∧ s.extend (some (n.toNat + 1)) = .ok s') ∨
        (¬ (s.end_ : Int) < n ∧ s' = s)) ∧
      r = s'.insert_pos n := by
  rw [Primes32.ip] at h
  by_cases hc : (s.end_ : Int) < n
  · rw [if_pos hc] at h
    cases hext : s.extend (some (n.toNat + 1)) with
    | error e => rw [hext] at h; simp at h
    | ok s1 =>
      rw [hext] at h
      simp only [Except.ok.injEq, Prod.mk.injEq] at h
      obtain ⟨h1, h2⟩ := h
      subst h1
      exact ⟨Or.inl ⟨hc, rfl⟩, h2.symm⟩
  · rw [if_neg hc] at h
    simp only [Except.ok.injEq, Prod.mk.injEq] at h
    obtain ⟨h1, h2⟩ := h
    subst h1
    exact ⟨Or.inr ⟨hc, rfl⟩, h2.symm⟩

theorem between_split {s : Primes32} {a b : Int} {s' : Primes32} {l : List Nat}
    (h : s.between a b = .ok (s', l)) :
    ((s.end_ : Int) < b ∧ s.extend (some b.toNat) = .ok s') ∨
      (¬ (s.end_ : Int) < b ∧ s' = s) := by
  rw [Primes32.between] at h
  by_cases hc : (s.end_ : Int) < b
  · rw [if_pos hc] at h
    cases hext : s.extend (some b.toNat) with
    | error e => rw [hext] at h; simp at h
    | ok s1 =>
      rw [hext] at h
      simp only [Except.ok.injEq, Prod.mk.injEq] at h
      obtain ⟨h1, h2⟩ := h
      subst h1
      exact Or.inl ⟨hc, rfl⟩
  · rw [if_neg hc] at h
    simp only [Except.ok.injEq, Prod.mk.injEq] at h
    obtain ⟨h1, h2⟩ := h
    subst h1
    exact Or.inr ⟨hc, rfl⟩

/-! ## Claim C1: the table invariant -/

/-- C1: every reachable state satisfies the invariant `Valid` — the
data prefix is strictly increasing, starts at 2, holds exactly the
primes below the frontier (every prime below it, no composite),
`count ≤ capacity`, and `frontier ≤ 2^32+1` — after construction from
scratch with any initial frontier, after every `extend`, and after every
growth-triggering query (`contains`, `ip`, `between`); and a table built
from scratch with initial frontier 100 has `length() == 25`. -/
theorem claim_C1 :
    (∀ init_max capacity s, Primes32.initScratch init_max capacity = .ok s →
      Valid s) ∧
    (∀ (s : Primes32) (lopt : Option Nat) (s' : Primes32), Valid s →
      s.extend lopt = .ok s' → Valid s') ∧
    (∀ (s : Primes32) (n : Int) (s' : Primes32) (b : Bool), Valid s →
      s.contains n = .ok (s', b) → Valid s') ∧
    (∀ (s : Primes32) (n : Int) (s' : Primes32) (r : Nat), Valid s →
      s.ip n = .ok (s', r) → Valid s') ∧
    (∀ (s : Primes32) (a b : Int) (s' : Primes32) (l : List Nat), Valid s →
      s.between a b = .ok (s', l) → Valid s') ∧
    (Primes32.initScratch 100 MAX_NP).map Primes32.len = .ok 25 := by
  refine ⟨fun _ _ _ h => initScratch_valid h,
    fun s lopt s' hv h => extend_valid hv lopt h, ?_, ?_, ?_, by rfl⟩
  · intro s n s' b hv h
    rcases (contains_split h).1 with ⟨_, hext⟩ | ⟨_, rfl⟩
    · exact extend_valid hv _ hext
    · exact hv
  · intro s n s' r hv h
    rcases (ip_split h).1 with ⟨_, hext⟩ | ⟨_, rfl⟩
    · exact extend_valid hv _ hext
    · exact hv
  · intro s a b s' l hv h
    rcases between_split h with ⟨_, hext⟩ | ⟨_, rfl⟩
    · exact extend_valid hv _ hext
    · exact hv

/-- Witness for `claim_C1`: the invariant holds for the concrete table
built from scratch with initial frontier 100. -/
theorem claim_C1_witness :
    Valid ⟨[2, 3, 5, 7, 11, 13, 17, 19, 23, 29, 31, 37, 41, 43, 47, 53, 59,
      61, 67, 71, 73, 79, 83, 89, 97], MAX_NP, 101⟩ :=
  claim_C1.1 100 MAX_NP _ (by rfl)

/-! ## Claim C2: the frontier computed by `extend` -/

/-- C2 counterexample: from the reachable state with frontier 3
(a scratch build with initial frontier 3), `extend(4)` produces
frontier 5, whereas the claimed minimum of the four quantities is at
most the requested target 4 — under either integer reading of
"frontier scaled by 1.2" (`int(1.2*3)` or `int(1.2*3)+1`). -/
theorem claim_C2_counterexample :
    Primes32.initScratch 3 MAX_NP = .ok ⟨[2], MAX_NP, 3⟩ ∧
      (Primes32.mk [2] MAX_NP 3).extend (some 4) = .ok ⟨[2, 3], MAX_NP, 5⟩ ∧
      (Primes32.mk [2, 3] MAX_NP 5).end_ ≠
        min 4 (min (gfScaled 3) (min (3 + MAX_DELTA) MAX_END)) ∧
      (Primes32.mk [2, 3] MAX_NP 5).end_ ≠
        min 4 (min (gfScaled 3 + 1) (min (3 + MAX_DELTA) MAX_END)) := by
  exact ⟨rfl, rfl, by decide, by decide⟩

/-- The frontier produced by a successful grow-to-target call. -/
theorem extend_target_end {s : Primes32} {target : Nat} {s' : Primes32}
    (hv : Valid s) (hlt : s.end_ < target) (hle : target ≤ MAX_END)
    (h : s.extend (some target) = .ok s') :
    s'.end_ = oddify (max target
      (min (s.end_ + MAX_DELTA) (min (gfScaled s.end_ + 1) MAX_END))) := by
  simp only [Primes32.extend] at h
  rw [if_neg (by omega)] at h
  rw [if_neg (by simp only [not_or]; exact ⟨by omega, by omega⟩)] at h
  have hlimle : max target (min (s.end_ + MAX_DELTA)
      (min (gfScaled s.end_ + 1) MAX_END)) ≤ MAX_END :=
    max_le hle (le_trans (min_le_right _ _) (min_le_right _ _))
  have hlimgt : s.end_ < max target (min (s.end_ + MAX_DELTA)
      (min (gfScaled s.end_ + 1) MAX_END)) :=
    lt_of_lt_of_le hlt (le_max_left _ _)
  exact extendLoop_end hlimle _ hv hlimgt (by omega) h

/-- C2 amended: for `extend(target)` with `frontier < target ≤ 2^32+1`,
the frontier afterwards equals the **maximum** of the requested target
and the minimum of (`frontier + 10^8`, `int(1.2*frontier)+1`, `2^32+1`),
rounded up to the next odd number when even. -/
theorem claim_C2 (s : Primes32) (target : Nat) (s' : Primes32) (hv : Valid s)
    (hlt : s.end_ < target) (hle : target ≤ MAX_END)
    (h : s.extend (some target) = .ok s') :
    s'.end_ = oddify (max target
      (min (s.end_ + MAX_DELTA) (min (gfScaled s.end_ + 1) MAX_END))) :=
  extend_target_end hv hlt hle h

/-- Witness for `claim_C2` at the concrete input of the counterexample. -/
theorem claim_C2_witness :
    (5 : Nat) = oddify (max 4 (min (3 + MAX_DELTA) (min (gfScaled 3 + 1)
      MAX_END))) := by
  have hv : Valid ⟨[2], MAX_NP, 3⟩ := valid_start (by norm_num [MAX_NP])
  have h := claim_C2 ⟨[2], MAX_NP, 3⟩ 4 ⟨[2, 3], MAX_NP, 5⟩ hv
    (by norm_num) (by norm_num [MAX_END]) rfl
  exact h

/-! ## Binary search -/

theorem getD_eq_get {data : List Nat} {i : Nat} (h : i < data.length) :
    data.getD i 0 = data.get ⟨i, h⟩ := by
  rw [List.getD_eq_getElem?_getD, List.getElem?_eq_getElem h]
  rfl

theorem getD_mem {data : List Nat} {i : Nat} (h : i < data.length) :
    data.getD i 0 ∈ data := by
  rw [getD_eq_get h]
  exact List.get_mem data i h

theorem getD_lt_getD {data : List Nat} (hs : data.Sorted (· < ·)) {i j : Nat}
    (hij : i < j) (hj : j < data.length) : data.getD i 0 < data.getD j 0 := by
  rw [getD_eq_get (lt_trans hij hj), getD_eq_get hj]
  exact hs.get_strictMono (by exact hij)

/-- If `n` occurs in the sorted data and the invariants of the binary
search hold, `ipLoop` lands on an index holding `n`. -/
theorem ipLoop_find {data : List Nat} (hsorted : data.Sorted (· < ·)) {n : Int}
    {j : Nat} (hj : j < data.length) (hjn : (data.getD j 0 : Int) = n) :
    ∀ (fuel lo hi : Nat), lo < hi → hi ≤ data.length → hi - lo ≤ fuel →
      (data.getD lo 0 : Int) < n →
      (hi = data.length ∨ n ≤ (data.getD hi 0 : Int)) →
      ipLoop data n fuel lo hi < data.length ∧
        (data.getD (ipLoop data n fuel lo hi) 0 : Int) = n := by
  intro fuel
  induction fuel with
  | zero => intro lo hi hlh _ hfuel _ _; omega
  | succ fuel ih =>
    intro lo hi hlh hhil hfuel hlo hhi
    rw [ipLoop]
    by_cases hgt : 1 < hi - lo
    · rw [if_pos hgt]
      have hmid1 : lo < (lo + hi) / 2 := by omega
      have hmid2 : (lo + hi) / 2 < hi := by omega
      have hmidl : (lo + hi) / 2 < data.length := by omega
      by_cases h1 : (data.getD ((lo + hi) / 2) 0 : Int) = n
      · rw [if_pos h1]
        exact ⟨hmidl, h1⟩
      · rw [if_neg h1]
        by_cases h2 : (data.getD ((lo + hi) / 2) 0 : Int) < n
        · rw [if_pos h2]
          exact ih _ _ hmid2 hhil (by omega) h2 hhi
        · rw [if_neg h2]
          have hnlt : n < (data.getD ((lo + hi) / 2) 0 : Int) := by omega
          exact ih _ _ hmid1 (by omega) (by omega) hlo (Or.inr (le_of_lt hnlt))
    · rw [if_neg hgt]
      have hhi1 : hi = lo + 1 := by omega
      have hloj : lo < j := by
        by_contra hc
        push_neg at hc
        rcases Nat.lt_or_ge j lo with hjlo | hjlo
        · have := getD_lt_getD hsorted hjlo (by omega)
          have : (data.getD j 0 : Int) < (data.getD lo 0 : Int) := by
            exact_mod_cast this
          omega
        · have hjl : j = lo := by omega
          rw [hjl] at hjn
          omega
      rcases hhi with hend | hle
      · omega
      · have hjhi : j ≤ hi := by
          by_contra hc
          push_neg at hc
          have := getD_lt_getD hsorted hc hj
          have : (data.getD hi 0 : Int) < (data.getD j 0 : Int) := by
            exact_mod_cast this
          omega
        have : j = hi := by omega
        exact ⟨this ▸ hj, this ▸ hjn⟩

/-- `_insert_pos` finds every member of a valid table. -/
theorem insert_pos_found {s : Primes32} (hv : Valid s) {q : Nat}
    (hq : q ∈ s.data) :
    s.insert_pos (q : Int) < s.np ∧
      (s.data.getD (s.insert_pos (q : Int)) 0 : Int) = (q : Int) := by
  obtain ⟨tl, htl⟩ : ∃ tl, s.data = 2 :: tl := by
    have := hv.head
    cases hd : s.data with
    | nil => rw [hd] at this; simp at this
    | cons a tl =>
      rw [hd] at this
      simp only [List.head?_cons, Option.some.injEq] at this
      exact ⟨tl, by rw [this]⟩
  have hlen : 1 ≤ s.data.length := by rw [htl]; simp
  have hget0 : s.data.getD 0 0 = 2 := by rw [htl]; rfl
  by_cases hq2 : (q : Int) ≤ 2
  · -- then q = 2 and the insert position is 0
    have hqp := (hv.mem q).1 hq
    have hq2' : q = 2 := by
      have := hqp.1.two_le
      omega
    rw [Primes32.insert_pos, if_pos hq2]
    subst hq2'
    refine ⟨hlen, ?_⟩
    rw [hget0]
  · rw [Primes32.insert_pos, if_neg hq2]
    obtain ⟨j, hjl, hjq⟩ := List.mem_iff_getElem.1 hq
    have hjd : (s.data.getD j 0 : Int) = (q : Int) := by
      rw [List.getD_eq_getElem?_getD, List.getElem?_eq_getElem hjl, hjq]
      rfl
    have h0 : (s.data.getD 0 0 : Int) < (q : Int) := by
      rw [hget0]; omega
    exact ipLoop_find hv.sorted hjl hjd s.data.length 0 s.data.length
      (by omega) (le_refl _) (by omega) h0 (Or.inl rfl)

/-- The boolean computed by `contains` answers exactly primality of any
`n` strictly below the frontier. -/
theorem lookup_iff {s : Primes32} (hv : Valid s) {n : Nat} (hn : n < s.end_) :
    ((decide (s.insert_pos (n : Int) < s.np) &&
      decide ((s.data.getD (s.insert_pos (n : Int)) 0 : Int) = (n : Int))) = true)
      ↔ Nat.Prime n := by
  simp only [Bool.and_eq_true, decide_eq_true_eq]
  constructor
  · rintro ⟨h1, h2⟩
    have hmem : s.data.getD (s.insert_pos (n : Int)) 0 ∈ s.data := getD_mem h1
    have heq : s.data.getD (s.insert_pos (n : Int)) 0 = n := by exact_mod_cast h2
    rw [heq] at hmem
    exact ((hv.mem n).1 hmem).1
  · intro hpr
    exact insert_pos_found hv ((hv.mem n).2 ⟨hpr, hn⟩)

theorem Valid.data_cons {s : Primes32} (hv : Valid s) : ∃ tl, s.data = 2 :: tl := by
  cases hd : s.data with
  | nil =>
    have h := hv.head
    rw [hd] at h
    simp at h
  | cons a tl =>
    have h := hv.head
    rw [hd] at h
    simp only [List.head?_cons, Option.some.injEq] at h
    exact ⟨tl, by rw [h]⟩

/-! ## Claim C10: small and negative arguments -/

/-- C10: for every integer `n ≤ 2` (including 0 and negatives) on a
valid table, `contains` and `ip` return without error and without
growing the table; `ip` returns 0, and `contains` is true exactly for
`n = 2`. -/
theorem claim_C10 (s : Primes32) (n : Int) (hv : Valid s) (hn : n ≤ 2) :
    s.contains n = .ok (s, decide (n = 2)) ∧ s.ip n = .ok (s, 0) := by
  have h3 := hv.three
  have h3i : (3 : Int) ≤ (s.end_ : Int) := by exact_mod_cast h3
  have hend : ¬ (s.end_ : Int) < n := by omega
  have hpos : s.insert_pos n = 0 := by rw [Primes32.insert_pos, if_pos hn]
  obtain ⟨tl, htl⟩ := hv.data_cons
  have hnp : 0 < s.np := by rw [Primes32.np, htl]; simp
  have hget0 : s.data.getD 0 0 = 2 := by rw [htl]; rfl
  constructor
  · rw [Primes32.contains, if_neg hend]
    show Except.ok (s, decide (s.insert_pos n < s.np) &&
        decide ((s.data.getD (s.insert_pos n) 0 : Int) = n)) =
      .ok (s, decide (n = 2))
    rw [hpos, hget0, decide_eq_true hnp, Bool.true_and]
    have hdec : decide (((2 : Nat) : Int) = n) = decide (n = 2) := by
      rw [decide_eq_decide]
      constructor
      · intro h
        rw [← h]
        rfl
      · intro h
        rw [h]
        rfl
    rw [hdec]
  · rw [Primes32.ip, if_neg hend]
    show Except.ok (s, s.insert_pos n) = .ok (s, 0)
    rw [hpos]

/-- Witness for `claim_C10` at a concrete table and `n = -7`. -/
theorem claim_C10_witness :
    (Primes32.mk [2] MAX_NP 3).contains (-7) = .ok (⟨[2], MAX_NP, 3⟩, false) ∧
      (Primes32.mk [2] MAX_NP 3).ip (-7) = .ok (⟨[2], MAX_NP, 3⟩, 0) := by
  have h := claim_C10 ⟨[2], MAX_NP, 3⟩ (-7)
    (valid_start (by norm_num [MAX_NP])) (by norm_num)
  simpa using h

/-! ## Claim C5: `contains` versus primality -/

/-- C5 counterexample: on the table built from scratch with initial
frontier 100 the frontier is 101, a prime below the ceiling; since
growth triggers only for `n > frontier` (not `n >= frontier`),
`contains(101)` does not grow and answers `False` for a prime. -/
theorem claim_C5_counterexample :
    Primes32.initScratch 100 MAX_NP = .ok table100 ∧
      table100.contains 101 = .ok (table100, false) ∧
      Nat.Prime 101 ∧ 101 < MAX_END := by
  refine ⟨rfl, rfl, by norm_num, by norm_num [MAX_END]⟩

/-- C5 amended: `contains(n)` grows the table only when `n` is
**strictly** greater than the frontier, and for every natural `n` below
the ceiling **other than the current frontier**, a completed call
returns true iff `n` is prime (at `n = frontier` it returns false even
when the frontier is prime). -/
theorem claim_C5 :
    (∀ (s : Primes32) (n : Nat) (s' : Primes32) (b : Bool), Valid s →
      n < MAX_END → n ≠ s.end_ → s.contains (n : Int) = .ok (s', b) →
      (b = true ↔ Nat.Prime n)) ∧
    (∀ (s : Primes32) (n : Int) (s' : Primes32) (b : Bool),
      s.contains n = .ok (s', b) → n ≤ (s.end_ : Int) → s' = s) := by
  constructor
  · intro s n s' b hv hn hne h
    obtain ⟨hsplit, hb⟩ := contains_split h
    rcases hsplit with ⟨hlt, hext⟩ | ⟨hnlt, heq⟩
    · have hltn : s.end_ < n := by exact_mod_cast hlt
      have hv' : Valid s' := extend_valid hv _ hext
      have htn : ((n : Int).toNat + 1) = n + 1 := by
        rw [Int.toNat_natCast]
      rw [htn] at hext
      have hend' := extend_target_end hv (by omega) (by omega) hext
      have hgt : n < s'.end_ := by
        rw [hend']
        unfold oddify
        have := le_max_left (n + 1) (min (s.end_ + MAX_DELTA)
          (min (gfScaled s.end_ + 1) MAX_END))
        omega
      rw [hb]
      exact lookup_iff hv' hgt
    · have hlen : n ≤ s.end_ := by exact_mod_cast not_lt.1 hnlt
      have hltn : n < s.end_ := by omega
      rw [hb, heq]
      exact lookup_iff hv hltn
  · intro s n s' b h hle
    obtain ⟨hsplit, _⟩ := contains_split h
    rcases hsplit with ⟨hlt, _⟩ | ⟨_, rfl⟩
    · omega
    · rfl

/-- Witness for `claim_C5` at the concrete table with frontier 101 and
`n = 97`. -/
theorem claim_C5_witness :
    Nat.Prime 97 ∧ (97 : Nat) < MAX_END ∧ (97 : Nat) ≠ table100.end_ := by
  have hv : Valid table100 :=
    initScratch_valid (show Primes32.initScratch 100 MAX_NP = .ok table100 by rfl)
  have h1 : (97 : Nat) < MAX_END := by norm_num [MAX_END]
  have h2 : (97 : Nat) ≠ table100.end_ := by norm_num [table100]
  exact ⟨(claim_C5.1 table100 97 table100 true hv h1 h2 (by rfl)).1 rfl, h1, h2⟩

/-! ## The lowest-set-bit extraction of `pf` -/

theorem land_pred_odd {n : Nat} (hn : n % 2 = 1) : n &&& (n - 1) = n - 1 := by
  apply Nat.eq_of_testBit_eq
  intro i
  cases i with
  | zero =>
    rw [Nat.testBit_land, Nat.testBit_zero, Nat.testBit_zero]
    rw [hn]
    have h1 : (n - 1) % 2 = 0 := by omega
    rw [h1]
    rfl
  | succ i =>
    rw [Nat.testBit_land, Nat.testBit_succ, Nat.testBit_succ]
    have h1 : n / 2 = (n - 1) / 2 := by omega
    rw [h1, Bool.and_self]

theorem land_pred_even {m : Nat} (hm : 1 ≤ m) :
    (2 * m) &&& (2 * m - 1) = 2 * (m &&& (m - 1)) := by
  apply Nat.eq_of_testBit_eq
  intro i
  cases i with
  | zero =>
    rw [Nat.testBit_land, Nat.testBit_zero, Nat.testBit_zero, Nat.testBit_zero]
    have h1 : 2 * m % 2 = 0 := by omega
    have h2 : 2 * (m &&& (m - 1)) % 2 = 0 := by omega
    rw [h1, h2]
    rfl
  | succ i =>
    rw [Nat.testBit_land, Nat.testBit_succ, Nat.testBit_succ, Nat.testBit_succ]
    have h1 : 2 * m / 2 = m := by omega
    have h2 : (2 * m - 1) / 2 = m - 1 := by omega
    have h3 : 2 * (m &&& (m - 1)) / 2 = m &&& (m - 1) := by omega
    rw [h1, h2, h3, Nat.testBit_land]

/-- `n & -n` (rendered `n - (n &&& (n-1))`) is the largest power of two
dividing a positive `n`. -/
theorem lowBit_spec :
    ∀ n, 1 ≤ n → ∃ v, lowBit n = 2 ^ v ∧ 2 ^ v ∣ n ∧ ¬ 2 ^ (v + 1) ∣ n := by
  intro n
  induction n using Nat.strong_induction_on with
  | _ n ih =>
    intro hn
    rcases Nat.even_or_odd n with ⟨m, hm⟩ | hodd
    · have hm2 : n = 2 * m := by omega
      have hm1 : 1 ≤ m := by omega
      obtain ⟨v, h1, h2, h3⟩ := ih m (by omega) hm1
      refine ⟨v + 1, ?_, ?_, ?_⟩
      · unfold lowBit at h1 ⊢
        rw [hm2, land_pred_even hm1]
        have hle : m &&& (m - 1) ≤ m := Nat.and_le_left
        have : 2 * m - 2 * (m &&& (m - 1)) = 2 * (m - (m &&& (m - 1))) := by omega
        rw [this, h1, pow_succ]
        ring
      · obtain ⟨c, hc⟩ := h2
        exact ⟨c, by rw [hm2, hc, pow_succ]; ring⟩
      · intro hdvd
        obtain ⟨c, hc⟩ := hdvd
        apply h3
        refine ⟨c, ?_⟩
        have : 2 * m = 2 * (2 ^ (v + 1) * c) := by
          rw [← hm2, hc, pow_succ, pow_succ]; ring
        omega
    · have h1 : n % 2 = 1 := Nat.odd_iff.1 hodd
      refine ⟨0, ?_, one_dvd n, ?_⟩
      · unfold lowBit
        rw [land_pred_odd h1, pow_zero]
        omega
      · intro hdvd
        obtain ⟨c, hc⟩ := hdvd
        rw [pow_one] at hc
        omega

theorem bit_length_two_pow (v : Nat) : bit_length (2 ^ v) = v + 1 := by
  unfold bit_length
  rw [if_neg (pow_ne_zero v (by norm_num)), Nat.log2_two_pow]

/-! ## `stripFactor` -/

theorem stripFactor_spec {p : Nat} (hp : 2 ≤ p) :
    ∀ fuel n, 1 ≤ n → n ≤ fuel →
      (stripFactor p fuel n).2 * p ^ (stripFactor p fuel n).1 = n ∧
      ¬ p ∣ (stripFactor p fuel n).2 ∧ 1 ≤ (stripFactor p fuel n).2 := by
  intro fuel
  induction fuel with
  | zero => intro n h1 h2; omega
  | succ fuel ih =>
    intro n h1 h2
    rw [stripFactor]
    by_cases hd : n % p = 0
    · simp only [if_pos hd]
      have hdvd : p ∣ n := Nat.dvd_of_mod_eq_zero hd
      have hnp1 : 1 ≤ n / p := Nat.div_pos (Nat.le_of_dvd (by omega) hdvd) (by omega)
      have hnpf : n / p ≤ fuel := by
        have := Nat.div_lt_self (show 0 < n by omega) (show 1 < p by omega)
        omega
      obtain ⟨ha, hb, hc⟩ := ih (n / p) hnp1 hnpf
      refine ⟨?_, hb, hc⟩
      show (stripFactor p fuel (n / p)).2 * p ^ ((stripFactor p fuel (n / p)).1 + 1) = n
      rw [pow_succ, ← mul_assoc, ha, Nat.div_mul_cancel hdvd]
    · simp only [if_neg hd]
      exact ⟨by rw [pow_zero]; ring, fun h => hd (Nat.mod_eq_zero_of_dvd h), h1⟩

/-! ## The trial-division loop of `pf` -/

theorem strictMono_add_le {tests : Nat → Nat} (hmono : StrictMono tests) (i : Nat) :
    tests 0 + i ≤ tests i := by
  induction i with
  | zero => omega
  | succ i ih =>
    have := hmono (show i < i + 1 by omega)
    omega

theorem pfLoop_spec {tests : Nat → Nat} (hmono : StrictMono tests)
    (h20 : 2 ≤ tests 0) (hprimes : ∀ p, Nat.Prime p → ∃ i, tests i = p) :
    ∀ fuel i n, 1 ≤ n → n + 1 ≤ fuel + i →
      (∀ q, Nat.Prime q → q ∣ n → tests i ≤ q) →
      ((pfLoop tests fuel i n).map fun pe => pe.1 ^ pe.2).prod = n ∧
        (∀ pe ∈ pfLoop tests fuel i n, Nat.Prime pe.1 ∧ 1 ≤ pe.2 ∧ pe.1 ∣ n) ∧
        List.Chain' (fun x y => x.1 < y.1) (pfLoop tests fuel i n) ∧
        (∀ pe ∈ pfLoop tests fuel i n, tests i ≤ pe.1) := by
  intro fuel
  induction fuel with
  | zero =>
    intro i n h1 h2 hinv
    have hn1 : n = 1 := by
      by_contra hne
      have hq := Nat.minFac_prime (show n ≠ 1 from hne)
      have := hinv n.minFac hq (Nat.minFac_dvd n)
      have h5 := strictMono_add_le hmono i
      have h6 := Nat.minFac_le (show 0 < n by omega)
      omega
    subst hn1
    rw [pfLoop]
    refine ⟨by simp, by simp, by simp, by simp⟩
  | succ fuel ih =>
    intro i n h1 h2 hinv
    simp only [pfLoop]
    have hp2 : 2 ≤ tests i := by
      have := strictMono_add_le hmono i
      omega
    by_cases hbreak : n < tests i * tests i
    · rw [if_pos hbreak]
      by_cases hn1 : 1 < n
      · rw [if_pos hn1]
        have hnpr : Nat.Prime n := by
          by_contra hnp
          have hsq := Nat.minFac_sq_le_self (show 0 < n by omega) hnp
          have hti := hinv n.minFac (Nat.minFac_prime (by omega)) (Nat.minFac_dvd n)
          rw [pow_two] at hsq
          nlinarith
        refine ⟨by simp, ?_, List.chain'_singleton _, ?_⟩
        · intro pe hpe
          rw [List.mem_singleton] at hpe
          subst hpe
          exact ⟨hnpr, le_refl 1, dvd_refl n⟩
        · intro pe hpe
          rw [List.mem_singleton] at hpe
          subst hpe
          exact hinv n hnpr (dvd_refl n)
      · rw [if_neg hn1]
        have hn : n = 1 := by omega
        subst hn
        refine ⟨by simp, by simp, by simp, by simp⟩
    · rw [if_neg hbreak]
      obtain ⟨hstrip, hndvd, hrpos⟩ :=
        stripFactor_spec hp2 n n h1 (le_refl n)
      have hr2dvd : (stripFactor (tests i) n n).2 ∣ n :=
        ⟨tests i ^ (stripFactor (tests i) n n).1, hstrip.symm⟩
      have hr2n : (stripFactor (tests i) n n).2 ≤ n := Nat.le_of_dvd (by omega) hr2dvd
      have hinv' : ∀ q, Nat.Prime q → q ∣ (stripFactor (tests i) n n).2 →
          tests (i + 1) ≤ q := by
        intro q hq hqd
        have hti : tests i ≤ q := hinv q hq (hqd.trans hr2dvd)
        have hne : q ≠ tests i := fun he => hndvd (he ▸ hqd)
        obtain ⟨j, hj⟩ := hprimes q hq
        have hij : i < j := by
          rcases lt_or_ge i j with hc | hc
          · exact hc
          · have := hmono.monotone hc
            omega
        have := hmono.monotone (show i + 1 ≤ j by omega)
        omega
      obtain ⟨ha', hb', hc', hd'⟩ := ih (i + 1) (stripFactor (tests i) n n).2
        hrpos (by omega) hinv'
      have hmi := hmono (show i < i + 1 by omega)
      by_cases hc1 : 0 < (stripFactor (tests i) n n).1
      · rw [if_pos hc1]
        have hpow : tests i ^ (stripFactor (tests i) n n).1 ∣ n :=
          dvd_of_mul_left_eq _ hstrip
        have hdvdn : tests i ∣ n :=
          (dvd_pow_self (tests i) (show (stripFactor (tests i) n n).1 ≠ 0
            by omega)).trans hpow
        have hppr : Nat.Prime (tests i) := by
          rw [Nat.prime_def_minFac]
          refine ⟨hp2, ?_⟩
          have hqpr := Nat.minFac_prime (show tests i ≠ 1 by omega)
          have h5 := hinv _ hqpr ((Nat.minFac_dvd _).trans hdvdn)
          have h6 := Nat.minFac_le (show 0 < tests i by omega)
          omega
        refine ⟨?_, ?_, ?_, ?_⟩
        · rw [List.singleton_append, List.map_cons, List.prod_cons, ha']
          exact (mul_comm _ _).trans hstrip
        · intro pe hpe
          rw [List.singleton_append, List.mem_cons] at hpe
          rcases hpe with rfl | hpe
          · exact ⟨hppr, by omega, hdvdn⟩
          · obtain ⟨hq1, hq2, hq3⟩ := hb' pe hpe
            exact ⟨hq1, hq2, hq3.trans hr2dvd⟩
        · rw [List.singleton_append, List.chain'_cons']
          refine ⟨?_, hc'⟩
          intro y hy
          have := hd' y (List.mem_of_mem_head? hy)
          omega
        · intro pe hpe
          rw [List.singleton_append, List.mem_cons] at hpe
          rcases hpe with rfl | hpe
          · exact le_refl _
          · have := hd' pe hpe
            omega
      · rw [if_neg hc1]
        have hr10 : (stripFactor (tests i) n n).1 = 0 := by omega
        have hr2 : (stripFactor (tests i) n n).2 = n := by
          rw [hr10, pow_zero, mul_one] at hstrip
          exact hstrip
        rw [List.nil_append]
        refine ⟨ha'.trans hr2, ?_, hc', ?_⟩
        · intro pe hpe
          obtain ⟨hq1, hq2, hq3⟩ := hb' pe hpe
          exact ⟨hq1, hq2, hr2 ▸ hq3⟩
        · intro pe hpe
          have := hd' pe hpe
          omega

/-! ## Claim C6: `pf` computes the prime factorization -/

/-- Concrete evaluation of `pf 360` (the `Nat.log2` inside `bit_length`
is well-founded recursion, so it is evaluated through its equations
rather than by kernel reduction). -/
theorem pf_360 : pf 360 (fun k => k + 2) = [(2, 3), (3, 2), (5, 1)] := by
  have h1 : bit_length (lowBit 360) - 1 = 3 := by
    have h8 : lowBit 360 = 8 := by decide
    have h2 : (8 : Nat) = 2 ^ 3 := by norm_num
    rw [h8, h2, bit_length_two_pow]
  simp only [pf]
  rw [if_neg (by norm_num), h1]
  rfl

/-- C6: with an unbounded strictly ascending divisor source whose values
are at least 2 and that contains every prime, `pf n` for `n ≥ 2` returns
(prime, exponent) pairs ascending by prime, every exponent at least 1,
whose product of `prime^exponent` reconstructs `n`; for `n ≤ 1` it
returns the empty factorization; and `pf 360` on the ascending source of
all integers from 2 is `[(2,3),(3,2),(5,1)]`. -/
theorem claim_C6 :
    (∀ (tests : Nat → Nat), StrictMono tests → 2 ≤ tests 0 →
      (∀ p, Nat.Prime p → ∃ i, tests i = p) →
      ∀ n, 2 ≤ n →
        ((pf n tests).map fun pe => pe.1 ^ pe.2).prod = n ∧
        (∀ pe ∈ pf n tests, Nat.Prime pe.1 ∧ 1 ≤ pe.2) ∧
        List.Chain' (fun x y => x.1 < y.1) (pf n tests)) ∧
    (∀ (tests : Nat → Nat) (n : Nat), n ≤ 1 → pf n tests = []) ∧
    pf 360 (fun k => k + 2) = [(2, 3), (3, 2), (5, 1)] := by
  refine ⟨?_, fun tests n hn => by rw [pf, if_pos hn], pf_360⟩
  intro tests hmono h20 hprimes n hn
  have ht0 : tests 0 = 2 := by
    obtain ⟨j, hj⟩ := hprimes 2 Nat.prime_two
    have := hmono.monotone (Nat.zero_le j)
    omega
  simp only [pf]
  rw [if_neg (by omega : ¬ n ≤ 1)]
  obtain ⟨v, hv1, hv2, hv3⟩ := lowBit_spec n (by omega)
  rw [hv1, bit_length_two_pow]
  have he : v + 1 - 1 = v := by omega
  rw [he, Nat.shiftRight_eq_div_pow]
  have hn1eq : 2 ^ v * (n / 2 ^ v) = n := Nat.mul_div_cancel' hv2
  have hn1pos : 1 ≤ n / 2 ^ v := by
    rcases Nat.eq_zero_or_pos (n / 2 ^ v) with h | h
    · rw [h, mul_zero] at hn1eq; omega
    · exact h
  have hn1odd : ¬ 2 ∣ (n / 2 ^ v) := by
    rintro ⟨c, hc⟩
    apply hv3
    exact ⟨c, by rw [pow_succ, ← hn1eq, hc]; ring⟩
  have hinv0 : ∀ q, Nat.Prime q → q ∣ (n / 2 ^ v) → tests 0 ≤ q := by
    intro q hq _
    rw [ht0]
    exact hq.two_le
  obtain ⟨ha, hb, hc, _⟩ := pfLoop_spec hmono h20 hprimes (n / 2 ^ v + 1) 0
    (n / 2 ^ v) hn1pos (by omega) hinv0
  have hodd_entries : ∀ pe ∈ pfLoop tests (n / 2 ^ v + 1) 0 (n / 2 ^ v),
      2 < pe.1 := by
    intro pe hpe
    obtain ⟨hq1, _, hq3⟩ := hb pe hpe
    have h2le := hq1.two_le
    rcases Nat.lt_or_ge 2 pe.1 with h | h
    · exact h
    · have hpe2 : pe.1 = 2 := by omega
      rw [hpe2] at hq3
      exact absurd hq3 hn1odd
  by_cases hv0 : 0 < v
  · rw [if_pos hv0, List.singleton_append]
    refine ⟨?_, ?_, ?_⟩
    · rw [List.map_cons, List.prod_cons, ha]
      exact hn1eq
    · intro pe hpe
      rcases List.mem_cons.1 hpe with rfl | hpe
      · exact ⟨Nat.prime_two, by omega⟩
      · obtain ⟨hq1, hq2, _⟩ := hb pe hpe
        exact ⟨hq1, hq2⟩
    · rw [List.chain'_cons']
      refine ⟨?_, hc⟩
      intro y hy
      exact hodd_entries y (List.mem_of_mem_head? hy)
  · rw [if_neg hv0, List.nil_append]
    have hdiv : n / 2 ^ v = n := by
      have hveq : v = 0 := by omega
      rw [hveq, pow_zero, Nat.div_one]
    exact ⟨ha.trans hdiv, fun pe hpe => ⟨(hb pe hpe).1, (hb pe hpe).2.1⟩, hc⟩

/-- Witness for `claim_C6` at `n = 360` with the ascending source of all
integers from 2. -/
theorem claim_C6_witness :
    ((pf 360 (fun k => k + 2)).map fun pe => pe.1 ^ pe.2).prod = 360 :=
  (claim_C6.1 (fun k => k + 2) (fun a b hab => Nat.add_lt_add_right hab 2)
    (le_refl 2)
    (fun p hp => ⟨p - 2, show p - 2 + 2 = p by have := hp.two_le; omega⟩)
    360 (by norm_num)).1

/-! ## Claim C9: negative inputs to the factorization routines -/

/-- With an empty digit list the `factor_pairs` generator never returns:
no amount of fuel completes the run. -/
theorem fpRun_nil (ordered : Bool) : ∀ (fuel : Nat) (a b : Int),
    fpRun ordered fuel [] a b = none := by
  intro fuel
  induction fuel with
  | zero => intro a b; rfl
  | succ fuel ih =>
    intro a b
    simp only [fpRun, fpInc]
    rw [ih]
    rfl

set_option maxRecDepth 4000 in
/-- C9 counterexample: `pf(-5)` returns the empty factorization instead
of failing, and `factor_pairs(-5)`/`factors(-5)` simply never finish
(here: not even with fuel 100) — no `InvalidInput` error exists. -/
theorem claim_C9_counterexample :
    pfZ (-5) (fun k => k + 2) = [] ∧ factor_pairs (-5) [] false 100 = none ∧
      factors (-5) [] 100 = none :=
  ⟨rfl, rfl, rfl⟩

/-- C9 amended: negative `n` is not rejected anywhere.  `pf` returns the
empty factorization (the `n <= 1` early return); `factor_pairs` on a
negative `n` (whose computed factorization is empty) never terminates —
no fuel completes the generator run — and `factors` consequently never
terminates either.  No `InvalidInput` condition is raised. -/
theorem claim_C9 :
    (∀ (n : Int) (tests : Nat → Nat), n < 0 → pfZ n tests = []) ∧
    (∀ (n : Int) (ordered : Bool) (fuel : Nat), n < 0 →
      factor_pairs n [] ordered fuel = none) ∧
    (∀ (n : Int) (tests : Nat → Nat) (fuel : Nat), n < 0 →
      factors n (pfZ n tests) fuel = none) := by
  have h1 : ∀ (n : Int) (tests : Nat → Nat), n < 0 → pfZ n tests = [] := by
    intro n tests hn
    rw [pfZ, if_pos (by omega)]
  have h2 : ∀ (n : Int) (ordered : Bool) (fuel : Nat), n < 0 →
      factor_pairs n [] ordered fuel = none := by
    intro n ordered fuel hn
    rw [factor_pairs, if_neg (by omega), if_neg (by omega)]
    exact fpRun_nil ordered fuel 1 n
  refine ⟨h1, h2, ?_⟩
  intro n tests fuel hn
  rw [factors, h1 n tests hn, h2 n true fuel hn]
  rfl

/-- Witness for `claim_C9` at `n = -5`. -/
theorem claim_C9_witness :
    pfZ (-5) (fun k => k + 3) = [] ∧ factor_pairs (-5) [] true 7 = none ∧
      factors (-5) (pfZ (-5) (fun k => k + 3)) 7 = none :=
  ⟨claim_C9.1 (-5) _ (by norm_num), claim_C9.2.1 (-5) true 7 (by norm_num),
    claim_C9.2.2 (-5) _ 7 (by norm_num)⟩


/-! ## The `factor_pairs` odometer: enumeration of all divisors
(claims C7 and C8) -/

theorem fpInc_nil (a b : Int) : fpInc [] a b = some ([], a, b) := rfl

theorem fpInc_cons (d : FPDigit) (ds : List FPDigit) (a b : Int) :
    fpInc (d :: ds) a b =
      if 0 < d.pb then
        some (⟨d.p, d.mp, d.pa + 1, d.pb - 1, d.value * d.p⟩ :: ds,
          a * d.p, b.fdiv d.p)
      else if ds.isEmpty then none
      else
        (fpInc ds (a.fdiv d.value) (b * d.value)).map
          fun r => (⟨d.p, d.mp, 0, d.mp, 1⟩ :: r.1, r.2) := rfl

theorem decodeVec_cons (pm : Int × Nat) (rest : List (Int × Nat)) (t : Nat) :
    decodeVec (pm :: rest) t =
      t % (pm.2 + 1) :: decodeVec rest (t / (pm.2 + 1)) := rfl

theorem encodeVec_cons (pm : Int × Nat) (rest : List (Int × Nat)) (e : Nat)
    (v : List Nat) :
    encodeVec (pm :: rest) (e :: v) = digitOf pm e :: encodeVec rest v := rfl

theorem aVal_cons (pm : Int × Nat) (rest : List (Int × Nat)) (e : Nat)
    (v : List Nat) :
    aVal (pm :: rest) (e :: v) = pm.1 ^ e * aVal rest v := by
  simp [aVal]

theorem bVal_cons (pm : Int × Nat) (rest : List (Int × Nat)) (e : Nat)
    (v : List Nat) :
    bVal (pm :: rest) (e :: v) = pm.1 ^ (pm.2 - e) * bVal rest v := by
  simp [bVal]

theorem totalCount_cons (pm : Int × Nat) (rest : List (Int × Nat)) :
    totalCount (pm :: rest) = (pm.2 + 1) * totalCount rest := by
  simp [totalCount]

theorem totalCount_nil : totalCount [] = 1 := rfl

theorem encodeVec_decode_isEmpty (pm : Int × Nat) (rest : List (Int × Nat))
    (t : Nat) :
    (encodeVec (pm :: rest) (decodeVec (pm :: rest) t)).isEmpty = false := by
  rw [decodeVec_cons, encodeVec_cons]
  rfl

theorem mod_div_succ_lt {t r : Nat} (hr : 0 < r) (h : t % r + 1 < r) :
    (t + 1) % r = t % r + 1 ∧ (t + 1) / r = t / r := by
  have hdm : r * (t / r) + t % r = t := Nat.div_add_mod t r
  have := (Nat.div_mod_unique hr (a := t + 1) (c := t % r + 1)
    (d := t / r)).2 ⟨by omega, h⟩
  exact ⟨this.2, this.1⟩

theorem mod_div_succ_carry {t r : Nat} (hr : 0 < r) (h : t % r + 1 = r) :
    (t + 1) % r = 0 ∧ (t + 1) / r = t / r + 1 := by
  have hdm : r * (t / r) + t % r = t := Nat.div_add_mod t r
  have hmul : r * (t / r + 1) = r * (t / r) + r := by ring
  have := (Nat.div_mod_unique hr (a := t + 1) (c := 0)
    (d := t / r + 1)).2 ⟨by omega, hr⟩
  exact ⟨this.2, this.1⟩

/-! ## One odometer increment tracks the counter -/

theorem totalCount_pos (pfs : List (Int × Nat)) : 0 < totalCount pfs := by
  induction pfs with
  | nil => exact Nat.one_pos
  | cons pm rest ih =>
    rw [totalCount_cons]
    exact Nat.mul_pos (by omega) ih

/-- Field-wise equality of odometer digits. -/
theorem FPDigit.extEq {d e : FPDigit} (h1 : d.p = e.p) (h2 : d.mp = e.mp)
    (h3 : d.pa = e.pa) (h4 : d.pb = e.pb) (h5 : d.value = e.value) : d = e := by
  cases d
  cases e
  simp only at h1 h2 h3 h4 h5
  subst h1
  subst h2
  subst h3
  subst h4
  subst h5
  rfl

/-- On the digit list encoding the counter value `t` (with `a`/`b` the
induced values and `C` an outer factor accumulated in `b`), `fpInc`
produces the encoding of `t + 1` — or `none` exactly when the counter
is exhausted. -/
theorem fpInc_decode :
    ∀ (pfs : List (Int × Nat)), (∀ pm ∈ pfs, 0 < pm.1) → pfs ≠ [] →
      ∀ (C : Int) (t : Nat),
      (t + 1 < totalCount pfs →
        fpInc (encodeVec pfs (decodeVec pfs t)) (aVal pfs (decodeVec pfs t))
          (C * bVal pfs (decodeVec pfs t)) =
        some (encodeVec pfs (decodeVec pfs (t + 1)),
          aVal pfs (decodeVec pfs (t + 1)),
          C * bVal pfs (decodeVec pfs (t + 1)))) ∧
      (t + 1 = totalCount pfs →
        fpInc (encodeVec pfs (decodeVec pfs t)) (aVal pfs (decodeVec pfs t))
          (C * bVal pfs (decodeVec pfs t)) = none) := by
  intro pfs
  induction pfs with
  | nil => intro _ hne; exact absurd rfl hne
  | cons pm rest ih =>
    intro hpos _ C t
    have hp0 : 0 < pm.1 := hpos pm (List.mem_cons_self pm rest)
    have hpne : pm.1 ≠ 0 := ne_of_gt hp0
    have htc : totalCount (pm :: rest) = (pm.2 + 1) * totalCount rest :=
      totalCount_cons pm rest
    have hr : 0 < pm.2 + 1 := by omega
    have hmlt : t % (pm.2 + 1) < pm.2 + 1 := Nat.mod_lt _ hr
    cases rest with
    | nil =>
      rw [totalCount_nil, mul_one] at htc
      constructor
      · intro hlt
        rw [htc] at hlt
        have ht : t % (pm.2 + 1) = t := Nat.mod_eq_of_lt (by omega)
        have ht1 : (t + 1) % (pm.2 + 1) = t + 1 := Nat.mod_eq_of_lt (by omega)
        rw [decodeVec_cons, decodeVec_cons, encodeVec_cons, encodeVec_cons,
          aVal_cons, aVal_cons, bVal_cons, bVal_cons, ht, ht1]
        rw [fpInc_cons]
        simp only [digitOf]
        rw [if_pos (show 0 < pm.2 - t by omega)]
        refine congrArg some ?_
        refine congrArg₂ Prod.mk ?_ (congrArg₂ Prod.mk ?_ ?_)
        · exact congrArg₂ List.cons
            (FPDigit.extEq rfl rfl rfl
              (by show pm.2 - t - 1 = pm.2 - (t + 1); omega)
              (pow_succ pm.1 t).symm) rfl
        · show pm.1 ^ t * 1 * pm.1 = pm.1 ^ (t + 1) * 1
          rw [pow_succ]
          ring
        · show (C * (pm.1 ^ (pm.2 - t) * 1)).fdiv pm.1 =
            C * (pm.1 ^ (pm.2 - (t + 1)) * 1)
          have hexp : pm.2 - t = (pm.2 - (t + 1)) + 1 := by omega
          rw [hexp, pow_succ,
            show C * (pm.1 ^ (pm.2 - (t + 1)) * pm.1 * 1) =
              pm.1 * (C * (pm.1 ^ (pm.2 - (t + 1)) * 1)) from by ring]
          exact Int.mul_fdiv_cancel_left _ hpne
      · intro heq
        rw [htc] at heq
        have ht : t % (pm.2 + 1) = pm.2 := by
          have htv : t = pm.2 := by omega
          rw [htv]
          exact Nat.mod_eq_of_lt (by omega)
        rw [decodeVec_cons, encodeVec_cons, ht]
        rw [fpInc_cons]
        simp only [digitOf]
        rw [if_neg (show ¬ 0 < pm.2 - pm.2 by omega)]
        rfl
    | cons pm2 rest2 =>
      have hrestne : (pm2 :: rest2) ≠ [] := by simp
      have hposr : ∀ q ∈ pm2 :: rest2, 0 < q.1 :=
        fun q hq => hpos q (List.mem_cons_of_mem pm hq)
      have htr : 0 < totalCount (pm2 :: rest2) := totalCount_pos _
      have hnotempty : ¬ ((encodeVec (pm2 :: rest2)
          (decodeVec (pm2 :: rest2) (t / (pm.2 + 1)))).isEmpty = true) := by
        rw [encodeVec_decode_isEmpty]
        simp
      by_cases hdig : t % (pm.2 + 1) < pm.2
      · -- head digit has capacity: increment it in place
        obtain ⟨hm1, hd1⟩ := mod_div_succ_lt (t := t) hr (by omega)
        constructor
        · intro _
          rw [decodeVec_cons, decodeVec_cons (t := t + 1), encodeVec_cons,
            encodeVec_cons, aVal_cons, aVal_cons, bVal_cons, bVal_cons,
            hm1, hd1]
          rw [fpInc_cons]
          simp only [digitOf]
          rw [if_pos (show 0 < pm.2 - t % (pm.2 + 1) by omega)]
          refine congrArg some ?_
          refine congrArg₂ Prod.mk ?_ (congrArg₂ Prod.mk ?_ ?_)
          · exact congrArg₂ List.cons
              (FPDigit.extEq rfl rfl rfl
                (by show pm.2 - t % (pm.2 + 1) - 1 = pm.2 - (t % (pm.2 + 1) + 1)
                    omega)
                (pow_succ pm.1 _).symm) rfl
          · rw [pow_succ]
            ring
          · show (C * (pm.1 ^ (pm.2 - t % (pm.2 + 1)) *
                bVal (pm2 :: rest2)
                  (decodeVec (pm2 :: rest2) (t / (pm.2 + 1))))).fdiv pm.1 =
              C * (pm.1 ^ (pm.2 - (t % (pm.2 + 1) + 1)) *
                bVal (pm2 :: rest2)
                  (decodeVec (pm2 :: rest2) (t / (pm.2 + 1))))
            have hexp : pm.2 - t % (pm.2 + 1) =
                (pm.2 - (t % (pm.2 + 1) + 1)) + 1 := by omega
            rw [hexp, pow_succ,
              show C * (pm.1 ^ (pm.2 - (t % (pm.2 + 1) + 1)) * pm.1 *
                  bVal (pm2 :: rest2)
                    (decodeVec (pm2 :: rest2) (t / (pm.2 + 1)))) =
                pm.1 * (C * (pm.1 ^ (pm.2 - (t % (pm.2 + 1) + 1)) *
                  bVal (pm2 :: rest2)
                    (decodeVec (pm2 :: rest2) (t / (pm.2 + 1)))))
                from by ring]
            exact Int.mul_fdiv_cancel_left _ hpne
        · intro heq
          exfalso
          have hmod0 : (t + 1) % (pm.2 + 1) = 0 := by
            rw [heq, htc]
            exact Nat.mul_mod_right _ _
          omega
      · -- head digit exhausted: reset it and carry into the tail
        have hdig' : t % (pm.2 + 1) = pm.2 := by omega
        obtain ⟨hm0, hd1⟩ := mod_div_succ_carry (t := t) hr (by omega)
        have hsplit : t + 1 = (pm.2 + 1) * (t / (pm.2 + 1) + 1) := by
          have hdm : (pm.2 + 1) * (t / (pm.2 + 1)) + t % (pm.2 + 1) = t :=
            Nat.div_add_mod t (pm.2 + 1)
          have hmul : (pm.2 + 1) * (t / (pm.2 + 1) + 1) =
              (pm.2 + 1) * (t / (pm.2 + 1)) + (pm.2 + 1) := by ring
          omega
        have hA : (pm.1 ^ pm.2 * aVal (pm2 :: rest2)
              (decodeVec (pm2 :: rest2) (t / (pm.2 + 1)))).fdiv (pm.1 ^ pm.2) =
            aVal (pm2 :: rest2) (decodeVec (pm2 :: rest2) (t / (pm.2 + 1))) :=
          Int.mul_fdiv_cancel_left _ (pow_ne_zero _ hpne)
        have hB : C * (pm.1 ^ (pm.2 - pm.2) * bVal (pm2 :: rest2)
              (decodeVec (pm2 :: rest2) (t / (pm.2 + 1)))) * pm.1 ^ pm.2 =
            C * pm.1 ^ pm.2 * bVal (pm2 :: rest2)
              (decodeVec (pm2 :: rest2) (t / (pm.2 + 1))) := by
          rw [Nat.sub_self, pow_zero]
          ring
        obtain ⟨H1, H2⟩ := ih hposr hrestne (C * pm.1 ^ pm.2) (t / (pm.2 + 1))
        constructor
        · intro hlt
          have hlt2 : t / (pm.2 + 1) + 1 < totalCount (pm2 :: rest2) := by
            rw [htc] at hlt
            by_contra hc
            push_neg at hc
            have := Nat.mul_le_mul_left (pm.2 + 1) hc
            omega
          have Hrec := H1 hlt2
          rw [decodeVec_cons, decodeVec_cons (t := t + 1), encodeVec_cons,
            encodeVec_cons, aVal_cons, aVal_cons, bVal_cons, bVal_cons,
            hdig', hm0, hd1]
          rw [fpInc_cons]
          simp only [digitOf]
          rw [if_neg (show ¬ 0 < pm.2 - pm.2 by omega), if_neg hnotempty,
            hA, hB, Hrec, Option.map_some']
          refine congrArg some ?_
          refine congrArg₂ Prod.mk ?_ (congrArg₂ Prod.mk ?_ ?_)
          · exact congrArg₂ List.cons
              (FPDigit.extEq rfl rfl rfl (by show pm.2 = pm.2 - 0; omega)
                (pow_zero pm.1).symm) rfl
          · rw [pow_zero]
            ring
          · rw [Nat.sub_zero]
            ring
        · intro heq
          have heq2 : t / (pm.2 + 1) + 1 = totalCount (pm2 :: rest2) := by
            rw [htc] at heq
            exact Nat.eq_of_mul_eq_mul_left hr (hsplit.symm.trans heq)
          have Hrec := H2 heq2
          rw [decodeVec_cons, encodeVec_cons, aVal_cons, bVal_cons, hdig']
          rw [fpInc_cons]
          simp only [digitOf]
          rw [if_neg (show ¬ 0 < pm.2 - pm.2 by omega), if_neg hnotempty,
            hA, hB, Hrec, Option.map_none']

/-! ## Run lemma -/

theorem fpRun_succ_none (ordered : Bool) (f : Nat) (ds : List FPDigit)
    (a b : Int) (h : fpInc ds a b = none) :
    fpRun ordered (f + 1) ds a b = some (fpYield ordered ds a b) := by
  show (match fpInc ds a b with
    | none => some (fpYield ordered ds a b)
    | some st => (fpRun ordered f st.1 st.2.1 st.2.2).map
        (fpYield ordered ds a b ++ ·)) = some (fpYield ordered ds a b)
  rw [h]

theorem fpRun_succ_some (ordered : Bool) (f : Nat) (ds E : List FPDigit)
    (a b A B : Int) (h : fpInc ds a b = some (E, A, B)) :
    fpRun ordered (f + 1) ds a b =
      (fpRun ordered f E A B).map (fpYield ordered ds a b ++ ·) := by
  show (match fpInc ds a b with
    | none => some (fpYield ordered ds a b)
    | some st => (fpRun ordered f st.1 st.2.1 st.2.2).map
        (fpYield ordered ds a b ++ ·)) =
    (fpRun ordered f E A B).map (fpYield ordered ds a b ++ ·)
  rw [h]

/-- The completed run starting at counter value `t` yields the items of
the counters `t, t+1, ..., totalCount - 1` in order. -/
theorem fpRun_decode (pfs : List (Int × Nat)) (hpos : ∀ pm ∈ pfs, 0 < pm.1)
    (hne : pfs ≠ []) (ordered : Bool) (C : Int) :
    ∀ (d t fuel : Nat), t + (d + 1) = totalCount pfs → d < fuel →
      fpRun ordered fuel (encodeVec pfs (decodeVec pfs t))
        (aVal pfs (decodeVec pfs t)) (C * bVal pfs (decodeVec pfs t)) =
      some ((List.range' t (d + 1)).flatMap fun k =>
        fpYield ordered (encodeVec pfs (decodeVec pfs k))
          (aVal pfs (decodeVec pfs k)) (C * bVal pfs (decodeVec pfs k))) := by
  intro d
  induction d with
  | zero =>
    intro t fuel ht hf
    obtain ⟨f, rfl⟩ : ∃ f, fuel = f + 1 := ⟨fuel - 1, by omega⟩
    have hnone := ((fpInc_decode pfs hpos hne C t).2 (by omega))
    rw [fpRun_succ_none ordered f _ _ _ hnone]
    simp [List.range']
  | succ d ih =>
    intro t fuel ht hf
    obtain ⟨f, rfl⟩ : ∃ f, fuel = f + 1 := ⟨fuel - 1, by omega⟩
    have hsome := ((fpInc_decode pfs hpos hne C t).1 (by omega))
    rw [fpRun_succ_some ordered f _ _ _ _ _ _ hsome]
    rw [ih (t + 1) f (by omega) (by omega)]
    rw [show List.range' t (d + 1 + 1) = t :: List.range' (t + 1) (d + 1) from rfl]
    rfl


/-! ## Start state -/

theorem encodeVec_decode_zero (pfs : List (Int × Nat)) :
    encodeVec pfs (decodeVec pfs 0) = fpStart pfs := by
  induction pfs with
  | nil => rfl
  | cons pm rest ih =>
    rw [decodeVec_cons, encodeVec_cons, Nat.zero_mod, Nat.zero_div]
    show digitOf pm 0 :: encodeVec rest (decodeVec rest 0) =
      ⟨pm.1, pm.2, 0, pm.2, 1⟩ :: fpStart rest
    rw [ih]
    refine congrArg₂ List.cons ?_ rfl
    exact FPDigit.extEq rfl rfl rfl (Nat.sub_zero pm.2) (pow_zero pm.1)

theorem aVal_decode_zero (pfs : List (Int × Nat)) :
    aVal pfs (decodeVec pfs 0) = 1 := by
  induction pfs with
  | nil => rfl
  | cons pm rest ih =>
    rw [decodeVec_cons, Nat.zero_mod, Nat.zero_div, aVal_cons, ih, pow_zero,
      one_mul]

theorem bVal_decode_zero (pfs : List (Int × Nat)) :
    bVal pfs (decodeVec pfs 0) = (pfs.map fun pm => pm.1 ^ pm.2).prod := by
  induction pfs with
  | nil => rfl
  | cons pm rest ih =>
    rw [decodeVec_cons, Nat.zero_mod, Nat.zero_div, bVal_cons, ih,
      Nat.sub_zero, List.map_cons, List.prod_cons]

/-- For `n ≥ 2` equal to the product of the digit radix powers, the
fuelled `factor_pairs` completes and yields the items of the counters
`0, ..., totalCount - 1` in order. -/
theorem factor_pairs_eq (pfs : List (Int × Nat))
    (hpos : ∀ pm ∈ pfs, 0 < pm.1) (hne : pfs ≠ []) (n : Int) (hn2 : 2 ≤ n)
    (hn : n = (pfs.map fun pm => pm.1 ^ pm.2).prod) (ordered : Bool)
    (fuel : Nat) (hf : totalCount pfs ≤ fuel) :
    factor_pairs n pfs ordered fuel =
      some ((List.range' 0 (totalCount pfs)).flatMap fun k =>
        fpYield ordered (encodeVec pfs (decodeVec pfs k))
          (aVal pfs (decodeVec pfs k)) (1 * bVal pfs (decodeVec pfs k))) := by
  have htp := totalCount_pos pfs
  have h0 := fpRun_decode pfs hpos hne ordered 1 (totalCount pfs - 1) 0 fuel
    (by omega) (by omega)
  rw [encodeVec_decode_zero, aVal_decode_zero, bVal_decode_zero, one_mul,
    ← hn, show totalCount pfs - 1 + 1 = totalCount pfs by omega]
    at h0
  unfold factor_pairs
  rw [if_neg (by omega), if_neg (by omega)]
  exact h0

/-! ## Yield projections -/

theorem fpYield_proj (ordered : Bool) (ds : List FPDigit) (a b : Int) :
    (fpYield ordered ds a b).map (fun y : FPYield => (y.1.1, y.2.1)) =
      if ordered || a ≤ b then [(a, b)] else [] := by
  unfold fpYield
  split
  · rfl
  · rfl

theorem fpYield_true (ds : List FPDigit) (a b : Int) :
    fpYield true ds a b =
      [((a, ds.map fun d => (d.p, d.pa)), (b, ds.map fun d => (d.p, d.pb)))] :=
  rfl

theorem sum_map_one {α : Type} (l : List α) :
    (l.map fun _ => (1 : Nat)).sum = l.length := by
  induction l with
  | nil => rfl
  | cons x xs ih => rw [List.map_cons, List.sum_cons, ih, List.length_cons]; omega


/-! ## Natural-number bridge -/

theorem pfsZof_cons (pm : Nat × Nat) (rest : List (Nat × Nat)) :
    pfsZof (pm :: rest) = ((pm.1 : Int), pm.2) :: pfsZof rest := rfl

theorem aValN_cons (pm : Nat × Nat) (rest : List (Nat × Nat)) (e : Nat)
    (v : List Nat) :
    aValN (pm :: rest) (e :: v) = pm.1 ^ e * aValN rest v := by
  simp [aValN]

theorem bValN_cons (pm : Nat × Nat) (rest : List (Nat × Nat)) (e : Nat)
    (v : List Nat) :
    bValN (pm :: rest) (e :: v) = pm.1 ^ (pm.2 - e) * bValN rest v := by
  simp [bValN]

theorem aVal_pfsZof (pfsN : List (Nat × Nat)) :
    ∀ v : List Nat, aVal (pfsZof pfsN) v = ((aValN pfsN v : Nat) : Int) := by
  induction pfsN with
  | nil => intro v; rfl
  | cons pm rest ih =>
    intro v
    cases v with
    | nil => rfl
    | cons e v =>
      rw [pfsZof_cons, aVal_cons, aValN_cons, ih, Nat.cast_mul, Nat.cast_pow]

theorem bVal_pfsZof (pfsN : List (Nat × Nat)) :
    ∀ v : List Nat, bVal (pfsZof pfsN) v = ((bValN pfsN v : Nat) : Int) := by
  induction pfsN with
  | nil => intro v; rfl
  | cons pm rest ih =>
    intro v
    cases v with
    | nil => rfl
    | cons e v =>
      rw [pfsZof_cons, bVal_cons, bValN_cons, ih, Nat.cast_mul, Nat.cast_pow]

theorem aValN_pos (pfsN : List (Nat × Nat)) (hp : ∀ pm ∈ pfsN, 0 < pm.1) :
    ∀ v : List Nat, 0 < aValN pfsN v := by
  induction pfsN with
  | nil => intro v; exact Nat.one_pos
  | cons pm rest ih =>
    intro v
    cases v with
    | nil => exact Nat.one_pos
    | cons e v =>
      rw [aValN_cons]
      exact Nat.mul_pos (Nat.pos_pow_of_pos e (hp pm (List.mem_cons_self pm rest)))
        (ih (fun q hq => hp q (List.mem_cons_of_mem pm hq)) v)

theorem bValN_pos (pfsN : List (Nat × Nat)) (hp : ∀ pm ∈ pfsN, 0 < pm.1) :
    ∀ v : List Nat, 0 < bValN pfsN v := by
  induction pfsN with
  | nil => intro v; exact Nat.one_pos
  | cons pm rest ih =>
    intro v
    cases v with
    | nil => exact Nat.one_pos
    | cons e v =>
      rw [bValN_cons]
      exact Nat.mul_pos
        (Nat.pos_pow_of_pos _ (hp pm (List.mem_cons_self pm rest)))
        (ih (fun q hq => hp q (List.mem_cons_of_mem pm hq)) v)

theorem prodPow_pos (pfsN : List (Nat × Nat)) (hp : ∀ pm ∈ pfsN, 0 < pm.1) :
    0 < (pfsN.map fun pm => pm.1 ^ pm.2).prod := by
  induction pfsN with
  | nil => exact Nat.one_pos
  | cons pm rest ih =>
    rw [List.map_cons, List.prod_cons]
    exact Nat.mul_pos (Nat.pos_pow_of_pos _ (hp pm (List.mem_cons_self pm rest)))
      (ih fun q hq => hp q (List.mem_cons_of_mem pm hq))

theorem aValN_mul_bValN (pfsN : List (Nat × Nat)) :
    ∀ t : Nat,
      aValN pfsN (decodeVec (pfsZof pfsN) t) *
        bValN pfsN (decodeVec (pfsZof pfsN) t) =
      (pfsN.map fun pm => pm.1 ^ pm.2).prod := by
  induction pfsN with
  | nil => intro t; rfl
  | cons pm rest ih =>
    intro t
    rw [pfsZof_cons, decodeVec_cons, aValN_cons, bValN_cons, List.map_cons,
      List.prod_cons]
    have he : t % (pm.2 + 1) ≤ pm.2 := by
      have := Nat.mod_lt t (show 0 < pm.2 + 1 by omega)
      omega
    have hpow : pm.1 ^ (t % (pm.2 + 1)) * pm.1 ^ (pm.2 - t % (pm.2 + 1)) =
        pm.1 ^ pm.2 := by
      rw [← pow_add]
      refine congrArg (pm.1 ^ ·) ?_
      omega
    calc pm.1 ^ (t % (pm.2 + 1)) * aValN rest (decodeVec (pfsZof rest) (t / (pm.2 + 1))) *
          (pm.1 ^ (pm.2 - t % (pm.2 + 1)) * bValN rest (decodeVec (pfsZof rest) (t / (pm.2 + 1))))
        = (pm.1 ^ (t % (pm.2 + 1)) * pm.1 ^ (pm.2 - t % (pm.2 + 1))) *
          (aValN rest (decodeVec (pfsZof rest) (t / (pm.2 + 1))) *
            bValN rest (decodeVec (pfsZof rest) (t / (pm.2 + 1)))) := by ring
      _ = pm.1 ^ pm.2 * (rest.map fun pm => pm.1 ^ pm.2).prod := by
          rw [hpow, ih]

theorem not_dvd_aValN (p : Nat) (hp : p.Prime) (pfsN : List (Nat × Nat))
    (hq : ∀ q ∈ pfsN, Nat.Prime q.1 ∧ p < q.1) :
    ∀ v : List Nat, ¬ p ∣ aValN pfsN v := by
  induction pfsN with
  | nil =>
    intro v hdvd
    exact Nat.Prime.one_lt hp |>.ne' (Nat.dvd_one.1 hdvd)
  | cons pm rest ih =>
    intro v
    cases v with
    | nil =>
      intro hdvd
      exact Nat.Prime.one_lt hp |>.ne' (Nat.dvd_one.1 hdvd)
    | cons e v =>
      rw [aValN_cons]
      intro hdvd
      rcases (Nat.Prime.dvd_mul hp).1 hdvd with h | h
      · have hpq : p = pm.1 :=
          (Nat.prime_dvd_prime_iff_eq hp (hq pm (List.mem_cons_self pm rest)).1).1
            (hp.dvd_of_dvd_pow h)
        have := (hq pm (List.mem_cons_self pm rest)).2
        omega
      · exact ih (fun q hq' => hq q (List.mem_cons_of_mem pm hq')) v h

theorem fact_pow_mul (p e m : Nat) (hp : p.Prime) (hm : ¬ p ∣ m) (hm0 : m ≠ 0) :
    (p ^ e * m).factorization p = e := by
  rw [Nat.factorization_mul (pow_ne_zero e hp.pos.ne') hm0, Finsupp.add_apply,
    hp.factorization_pow, Finsupp.single_eq_same,
    Nat.factorization_eq_zero_of_not_dvd hm]
  omega


theorem decodeVec_pfsZof_cons (pm : Nat × Nat) (rest : List (Nat × Nat))
    (t : Nat) :
    decodeVec (pfsZof (pm :: rest)) t =
      t % (pm.2 + 1) :: decodeVec (pfsZof rest) (t / (pm.2 + 1)) := rfl

/-- Distinct counters below the total give distinct `a` values: the
mixed-radix digits are recovered by `p`-adic valuation. -/
theorem aValN_decode_inj (pfsN : List (Nat × Nat))
    (hp : ∀ pm ∈ pfsN, Nat.Prime pm.1)
    (hsort : pfsN.Pairwise fun x y => x.1 < y.1) :
    ∀ t₁ t₂, t₁ < totalCount (pfsZof pfsN) → t₂ < totalCount (pfsZof pfsN) →
      aValN pfsN (decodeVec (pfsZof pfsN) t₁) =
        aValN pfsN (decodeVec (pfsZof pfsN) t₂) → t₁ = t₂ := by
  induction pfsN with
  | nil =>
    intro t₁ t₂ h₁ h₂ _
    have : totalCount (pfsZof []) = 1 := rfl
    omega
  | cons pm rest ih =>
    intro t₁ t₂ h₁ h₂ hval
    have hpm : Nat.Prime pm.1 := hp pm (List.mem_cons_self pm rest)
    have hptail : ∀ q ∈ rest, Nat.Prime q.1 :=
      fun q hq => hp q (List.mem_cons_of_mem pm hq)
    have hgt : ∀ q ∈ rest, Nat.Prime q.1 ∧ pm.1 < q.1 := by
      intro q hq
      exact ⟨hptail q hq, (List.pairwise_cons.1 hsort).1 q hq⟩
    have htc : totalCount (pfsZof (pm :: rest)) =
        (pm.2 + 1) * totalCount (pfsZof rest) := by
      rw [pfsZof_cons]
      exact totalCount_cons _ _
    have hr : 0 < pm.2 + 1 := by omega
    rw [decodeVec_pfsZof_cons, decodeVec_pfsZof_cons, aValN_cons, aValN_cons]
      at hval
    have hm₁ := not_dvd_aValN pm.1 hpm rest hgt
      (decodeVec (pfsZof rest) (t₁ / (pm.2 + 1)))
    have hm₂ := not_dvd_aValN pm.1 hpm rest hgt
      (decodeVec (pfsZof rest) (t₂ / (pm.2 + 1)))
    have hpos₁ := aValN_pos rest (fun q hq => (hptail q hq).pos)
      (decodeVec (pfsZof rest) (t₁ / (pm.2 + 1)))
    have hpos₂ := aValN_pos rest (fun q hq => (hptail q hq).pos)
      (decodeVec (pfsZof rest) (t₂ / (pm.2 + 1)))
    have he : t₁ % (pm.2 + 1) = t₂ % (pm.2 + 1) := by
      have f₁ := fact_pow_mul pm.1 (t₁ % (pm.2 + 1)) _ hpm hm₁ (by omega)
      have f₂ := fact_pow_mul pm.1 (t₂ % (pm.2 + 1)) _ hpm hm₂ (by omega)
      rw [← f₁, ← f₂, hval]
    rw [he] at hval
    have hmv : aValN rest (decodeVec (pfsZof rest) (t₁ / (pm.2 + 1))) =
        aValN rest (decodeVec (pfsZof rest) (t₂ / (pm.2 + 1))) :=
      Nat.eq_of_mul_eq_mul_left (Nat.pos_pow_of_pos _ hpm.pos) hval
    have hq₁ : t₁ / (pm.2 + 1) < totalCount (pfsZof rest) := by
      rw [htc, mul_comm] at h₁
      exact (Nat.div_lt_iff_lt_mul hr).2 h₁
    have hq₂ : t₂ / (pm.2 + 1) < totalCount (pfsZof rest) := by
      rw [htc, mul_comm] at h₂
      exact (Nat.div_lt_iff_lt_mul hr).2 h₂
    have hqq := ih hptail (List.pairwise_cons.1 hsort).2 _ _ hq₁ hq₂ hmv
    calc t₁ = (pm.2 + 1) * (t₁ / (pm.2 + 1)) + t₁ % (pm.2 + 1) :=
          (Nat.div_add_mod t₁ (pm.2 + 1)).symm
      _ = (pm.2 + 1) * (t₂ / (pm.2 + 1)) + t₂ % (pm.2 + 1) := by rw [he, hqq]
      _ = t₂ := Nat.div_add_mod t₂ (pm.2 + 1)

/-- A prime smaller than every base does not divide the product of the
prime powers. -/
theorem not_dvd_prodPow (p : Nat) (hp : p.Prime) (pfsN : List (Nat × Nat))
    (hq : ∀ q ∈ pfsN, Nat.Prime q.1 ∧ p < q.1) :
    ¬ p ∣ (pfsN.map fun pm => pm.1 ^ pm.2).prod := by
  induction pfsN with
  | nil =>
    rw [List.map_nil, List.prod_nil, Nat.dvd_one]
    exact hp.one_lt.ne'
  | cons q rest ih =>
    rw [List.map_cons, List.prod_cons]
    intro hdvd
    rcases (Nat.Prime.dvd_mul hp).1 hdvd with h | h
    · have : p = q.1 :=
        (Nat.prime_dvd_prime_iff_eq hp
          (hq q (List.mem_cons_self q rest)).1).1 (hp.dvd_of_dvd_pow h)
      have := (hq q (List.mem_cons_self q rest)).2
      omega
    · exact ih (fun x hx => hq x (List.mem_cons_of_mem q hx)) h

/-- Every divisor of the factored product is the `a` value of a counter
below the total. -/
theorem aValN_decode_surj (pfsN : List (Nat × Nat))
    (hp : ∀ pm ∈ pfsN, Nat.Prime pm.1)
    (hsort : pfsN.Pairwise fun x y => x.1 < y.1) :
    ∀ d, d ∣ (pfsN.map fun pm => pm.1 ^ pm.2).prod →
      ∃ t, t < totalCount (pfsZof pfsN) ∧
        aValN pfsN (decodeVec (pfsZof pfsN) t) = d := by
  induction pfsN with
  | nil =>
    intro d hd
    refine ⟨0, Nat.one_pos, ?_⟩
    have hd1 : d = 1 := Nat.dvd_one.1 hd
    rw [hd1]
    rfl
  | cons pm rest ih =>
    intro d hd
    have hpm : Nat.Prime pm.1 := hp pm (List.mem_cons_self pm rest)
    have hptail : ∀ q ∈ rest, Nat.Prime q.1 :=
      fun q hq => hp q (List.mem_cons_of_mem pm hq)
    have hgt : ∀ q ∈ rest, Nat.Prime q.1 ∧ pm.1 < q.1 := by
      intro q hq
      exact ⟨hptail q hq, (List.pairwise_cons.1 hsort).1 q hq⟩
    have hMpos : 0 < (rest.map fun pm => pm.1 ^ pm.2).prod :=
      prodPow_pos rest fun q hq => (hptail q hq).pos
    have hpM : ¬ pm.1 ∣ (rest.map fun pm => pm.1 ^ pm.2).prod :=
      not_dvd_prodPow pm.1 hpm rest hgt
    rw [List.map_cons, List.prod_cons] at hd
    have hNpos : 0 < pm.1 ^ pm.2 * (rest.map fun pm => pm.1 ^ pm.2).prod :=
      Nat.mul_pos (Nat.pos_pow_of_pos _ hpm.pos) hMpos
    have hd0 : d ≠ 0 := by
      rintro rfl
      rw [Nat.zero_dvd] at hd
      omega
    set e := d.factorization pm.1 with hedef
    have hpe : pm.1 ^ e ∣ d := Nat.ordProj_dvd d pm.1
    have hdsplit : d = pm.1 ^ e * (d / pm.1 ^ e) :=
      (Nat.mul_div_cancel' hpe).symm
    have hnd' : ¬ pm.1 ∣ d / pm.1 ^ e := Nat.not_dvd_ordCompl hpm hd0
    -- the exponent is bounded by the radix exponent
    have hemp : e ≤ pm.2 := by
      have hle := (Nat.factorization_le_iff_dvd hd0 (by omega)).2 hd
      have := hle pm.1
      rw [fact_pow_mul pm.1 pm.2 _ hpm hpM (by omega)] at this
      omega
    -- the cofactor divides the tail product
    have hdM : d / pm.1 ^ e ∣ (rest.map fun pm => pm.1 ^ pm.2).prod := by
      have hsplitpow : pm.1 ^ pm.2 = pm.1 ^ e * pm.1 ^ (pm.2 - e) := by
        rw [← pow_add]
        refine congrArg (pm.1 ^ ·) ?_
        omega
      have hdvd2 : pm.1 ^ e * (d / pm.1 ^ e) ∣
          pm.1 ^ e * (pm.1 ^ (pm.2 - e) * (rest.map fun pm => pm.1 ^ pm.2).prod) := by
        rw [← mul_assoc, ← hsplitpow, ← hdsplit]
        exact hd
      have hdvd3 := (mul_dvd_mul_iff_left
        (show (pm.1 : Nat) ^ e ≠ 0 from pow_ne_zero e hpm.pos.ne')).1 hdvd2
      have hcop : Nat.Coprime (d / pm.1 ^ e) (pm.1 ^ (pm.2 - e)) :=
        Nat.Coprime.pow_right _
          (Nat.coprime_comm.1 ((Nat.Prime.coprime_iff_not_dvd hpm).2 hnd'))
      exact hcop.dvd_of_dvd_mul_left hdvd3
    obtain ⟨t', ht', hval'⟩ := ih hptail (List.pairwise_cons.1 hsort).2 _ hdM
    refine ⟨e + (pm.2 + 1) * t', ?_, ?_⟩
    · have htc : totalCount (pfsZof (pm :: rest)) =
          (pm.2 + 1) * totalCount (pfsZof rest) := by
        rw [pfsZof_cons]
        exact totalCount_cons _ _
      obtain ⟨s, hs⟩ : ∃ s, totalCount (pfsZof rest) = t' + 1 + s :=
        ⟨totalCount (pfsZof rest) - (t' + 1), by omega⟩
      have hdist : (pm.2 + 1) * totalCount (pfsZof rest) =
          (pm.2 + 1) * t' + (pm.2 + 1) + (pm.2 + 1) * s := by
        rw [hs]
        ring
      omega
    · rw [decodeVec_pfsZof_cons, aValN_cons]
      have hmod : (e + (pm.2 + 1) * t') % (pm.2 + 1) = e := by
        rw [Nat.add_mul_mod_self_left]
        exact Nat.mod_eq_of_lt (by omega)
      have hdiv : (e + (pm.2 + 1) * t') / (pm.2 + 1) = t' := by
        rw [Nat.add_mul_div_left _ _ (show 0 < pm.2 + 1 by omega)]
        rw [Nat.div_eq_of_lt (by omega)]
        omega
      rw [hmod, hdiv, hval']
      omega


/-! ## Assembly helpers -/

theorem mem_if_singleton {α : Type} (c : Prop) [Decidable c] (x y : α) :
    (y ∈ if c then [x] else ([] : List α)) ↔ c ∧ y = x := by
  by_cases h : c
  · rw [if_pos h]
    simp [h]
  · rw [if_neg h]
    simp [h]

theorem flatMap_single {α β : Type} (l : List α) (f : α → β) :
    (l.flatMap fun x => [f x]) = l.map f := by
  induction l with
  | nil => rfl
  | cons a t ih => simp [ih]

theorem prodPow_pfsZof (pfsN : List (Nat × Nat)) :
    ((pfsZof pfsN).map fun pm => pm.1 ^ pm.2).prod =
      (((pfsN.map fun pm => pm.1 ^ pm.2).prod : Nat) : Int) := by
  induction pfsN with
  | nil => rfl
  | cons pm rest ih =>
    rw [pfsZof_cons, List.map_cons, List.prod_cons, ih, List.map_cons,
      List.prod_cons, Nat.cast_mul, Nat.cast_pow]

theorem totalCount_pfsZof (pfsN : List (Nat × Nat)) :
    totalCount (pfsZof pfsN) = (pfsN.map fun pm => pm.2 + 1).prod := by
  induction pfsN with
  | nil => rfl
  | cons pm rest ih =>
    rw [pfsZof_cons, totalCount_cons, ih, List.map_cons, List.prod_cons]

theorem head_eq_of_sorted_mem (l : List Int) (hp : l.Pairwise (· ≤ ·))
    (c : Int) (hc : c ∈ l) (hlb : ∀ x ∈ l, c ≤ x) : l.head? = some c := by
  cases l with
  | nil => cases hc
  | cons a t =>
    have h1 : c ≤ a := hlb a (List.mem_cons_self a t)
    have h2 : a ≤ c := by
      rcases List.mem_cons.1 hc with h | h
      · omega
      · exact (List.pairwise_cons.1 hp).1 c h
    have : a = c := by omega
    rw [this]
    rfl

theorem getLast_eq_of_sorted_mem :
    ∀ (l : List Int), l.Pairwise (· ≤ ·) →
      ∀ c : Int, c ∈ l → (∀ x ∈ l, x ≤ c) → l.getLast? = some c := by
  intro l
  induction l with
  | nil => intro _ c hc; cases hc
  | cons a t ih =>
    intro hp c hc hub
    cases t with
    | nil =>
      rcases List.mem_cons.1 hc with h | h
      · rw [h]
        rfl
      · cases h
    | cons b t2 =>
      rw [List.getLast?_cons_cons]
      have hptail : (b :: t2).Pairwise (· ≤ ·) := (List.pairwise_cons.1 hp).2
      have hctail : c ∈ b :: t2 := by
        rcases List.mem_cons.1 hc with h | h
        · have hab : a ≤ b := (List.pairwise_cons.1 hp).1 b (List.mem_cons_self b t2)
          have hbc : b ≤ c := hub b (List.mem_cons_of_mem a (List.mem_cons_self b t2))
          have : b = c := by omega
          rw [← this]
          exact List.mem_cons_self b t2
        · exact h
      exact ih hptail c hctail fun x hx => hub x (List.mem_cons_of_mem a hx)


/-- Membership in the projected yield list of the completed run. -/
theorem mem_proj_flat (pfs : List (Int × Nat)) (ordered : Bool) (P : Int × Int) :
    (P ∈ ((List.range' 0 (totalCount pfs)).flatMap fun k =>
        fpYield ordered (encodeVec pfs (decodeVec pfs k))
          (aVal pfs (decodeVec pfs k)) (1 * bVal pfs (decodeVec pfs k))).map
        (fun y : FPYield => (y.1.1, y.2.1))) ↔
      ∃ k, k < totalCount pfs ∧
        (ordered = true ∨
          aVal pfs (decodeVec pfs k) ≤ 1 * bVal pfs (decodeVec pfs k)) ∧
        P = (aVal pfs (decodeVec pfs k), 1 * bVal pfs (decodeVec pfs k)) := by
  rw [List.map_flatMap]
  rw [List.mem_flatMap]
  constructor
  · rintro ⟨k, hkr, hmem⟩
    have hk := (List.mem_range'_1.1 hkr).2
    rw [fpYield_proj, mem_if_singleton] at hmem
    refine ⟨k, by omega, ?_, hmem.2⟩
    have hor := hmem.1
    rw [Bool.or_eq_true] at hor
    rcases hor with h | h
    · exact Or.inl h
    · exact Or.inr (of_decide_eq_true h)
  · rintro ⟨k, hk, hcond, hP⟩
    refine ⟨k, List.mem_range'_1.2 ⟨by omega, by omega⟩, ?_⟩
    rw [fpYield_proj, mem_if_singleton]
    refine ⟨?_, hP⟩
    rcases hcond with h | h
    · rw [h]
      rfl
    · rw [Bool.or_eq_true]
      exact Or.inr (decide_eq_true h)

/-- The projected yield list has no duplicates: the `a` components of
distinct counters differ. -/
theorem nodup_proj_flat (pfsN : List (Nat × Nat))
    (hprime : ∀ pm ∈ pfsN, Nat.Prime pm.1)
    (hsort : pfsN.Pairwise fun x y => x.1 < y.1) (ordered : Bool) :
    (((List.range' 0 (totalCount (pfsZof pfsN))).flatMap fun k =>
        fpYield ordered (encodeVec (pfsZof pfsN) (decodeVec (pfsZof pfsN) k))
          (aVal (pfsZof pfsN) (decodeVec (pfsZof pfsN) k))
          (1 * bVal (pfsZof pfsN) (decodeVec (pfsZof pfsN) k))).map
        (fun y : FPYield => (y.1.1, y.2.1))).Nodup := by
  rw [List.map_flatMap]
  rw [List.flatMap_def, List.nodup_flatten]
  constructor
  · intro l' hl'
    obtain ⟨k, _, rfl⟩ := List.mem_map.1 hl'
    rw [fpYield_proj]
    split
    · exact List.nodup_singleton _
    · exact List.nodup_nil
  · rw [List.pairwise_map]
    refine (List.pairwise_lt_range' 0 (totalCount (pfsZof pfsN)) 1 ?_).imp_of_mem ?_
    · omega
    · intro k₁ k₂ hk₁ hk₂ hlt
      have hb₁ := (List.mem_range'_1.1 hk₁).2
      have hb₂ := (List.mem_range'_1.1 hk₂).2
      intro P hP₁ hP₂
      rw [fpYield_proj, mem_if_singleton] at hP₁ hP₂
      have ha : aVal (pfsZof pfsN) (decodeVec (pfsZof pfsN) k₁) =
          aVal (pfsZof pfsN) (decodeVec (pfsZof pfsN) k₂) := by
        have := hP₁.2.symm.trans hP₂.2
        exact congrArg Prod.fst this
      rw [aVal_pfsZof, aVal_pfsZof] at ha
      have haN : aValN pfsN (decodeVec (pfsZof pfsN) k₁) =
          aValN pfsN (decodeVec (pfsZof pfsN) k₂) := by exact_mod_cast ha
      have := aValN_decode_inj pfsN hprime hsort k₁ k₂ (by omega) (by omega) haN
      omega


/-- A pair appears at some counter below the total exactly when it is a
positive splitting of `n`. -/
theorem pair_char (pfsN : List (Nat × Nat))
    (hprime : ∀ pm ∈ pfsN, Nat.Prime pm.1)
    (hsort : pfsN.Pairwise fun x y => x.1 < y.1) (nN : Nat)
    (hn : nN = (pfsN.map fun pm => pm.1 ^ pm.2).prod) (a b : Int) :
    (∃ k, k < totalCount (pfsZof pfsN) ∧
      (a, b) = (aVal (pfsZof pfsN) (decodeVec (pfsZof pfsN) k),
        1 * bVal (pfsZof pfsN) (decodeVec (pfsZof pfsN) k))) ↔
    (0 < a ∧ a * b = (nN : Int)) := by
  have hpos : ∀ pm ∈ pfsN, 0 < pm.1 := fun pm h => (hprime pm h).pos
  have hnpos : 0 < nN := by
    rw [hn]
    exact prodPow_pos pfsN hpos
  constructor
  · rintro ⟨k, hk, hab⟩
    have ha : a = aVal (pfsZof pfsN) (decodeVec (pfsZof pfsN) k) :=
      congrArg Prod.fst hab
    have hb : b = 1 * bVal (pfsZof pfsN) (decodeVec (pfsZof pfsN) k) :=
      congrArg Prod.snd hab
    rw [one_mul] at hb
    rw [ha, hb, aVal_pfsZof, bVal_pfsZof]
    constructor
    · exact_mod_cast aValN_pos pfsN hpos _
    · rw [← Nat.cast_mul, aValN_mul_bValN, ← hn]
  · rintro ⟨ha, hab⟩
    have habpos : 0 < a * b := by
      rw [hab]
      exact_mod_cast hnpos
    have hb : 0 < b := by
      rcases mul_pos_iff.1 habpos with ⟨_, h⟩ | ⟨h, _⟩
      · exact h
      · omega
    have haN : ((a.toNat : Nat) : Int) = a := Int.toNat_of_nonneg (by omega)
    have hbN : ((b.toNat : Nat) : Int) = b := Int.toNat_of_nonneg (by omega)
    have hmulN : a.toNat * b.toNat = nN := by
      have : ((a.toNat * b.toNat : Nat) : Int) = ((nN : Nat) : Int) := by
        rw [Nat.cast_mul, haN, hbN, hab]
      exact_mod_cast this
    have hdvd : a.toNat ∣ nN := Dvd.intro _ hmulN
    rw [hn] at hdvd
    obtain ⟨t, ht, hval⟩ := aValN_decode_surj pfsN hprime hsort _ hdvd
    have hbval : bValN pfsN (decodeVec (pfsZof pfsN) t) = b.toNat := by
      have hprod := aValN_mul_bValN pfsN t
      rw [hval, ← hn] at hprod
      have haNpos : 0 < a.toNat := by omega
      exact Nat.eq_of_mul_eq_mul_left haNpos (by omega)
    refine ⟨t, ht, ?_⟩
    rw [aVal_pfsZof, bVal_pfsZof, hval, hbval, one_mul, haN, hbN]

/-- C7: for `n ≥ 2` with its correct factorization, `factor_pairs`
with `ordered=False` yields exactly the pairs `(a, b)` with
`a * b = n` and `a ≤ b`, each unordered pair exactly once; with
`ordered=True` it yields every ordered pair `(a, b)` with `a * b = n`
(both `(a, b)` and `(b, a)`, with `(a, a)` listed once); `n = 1` yields
exactly `((1, ()), (1, ()))`; `n = 0` yields nothing; concretely the
unordered pairs of 12 are `(1,12), (2,6), (3,4)`. -/
theorem claim_C7 (nN : Nat) (pfsN : List (Nat × Nat))
    (hprime : ∀ pm ∈ pfsN, Nat.Prime pm.1)
    (hsort : pfsN.Pairwise fun x y => x.1 < y.1)
    (hn : nN = (pfsN.map fun pm => pm.1 ^ pm.2).prod)
    (h2 : 2 ≤ nN) (fuel : Nat) (hfuel : totalCount (pfsZof pfsN) ≤ fuel) :
    (∀ (pfs' : List (Int × Nat)) (ord : Bool) (f : Nat),
        factor_pairs 0 pfs' ord f = some []) ∧
    (∀ (pfs' : List (Int × Nat)) (ord : Bool) (f : Nat),
        factor_pairs 1 pfs' ord f = some [((1, []), (1, []))]) ∧
    (∃ L, factor_pairs (nN : Int) (pfsZof pfsN) false fuel = some L ∧
      (L.map fun y : FPYield => (y.1.1, y.2.1)).Nodup ∧
      ∀ a b : Int, ((a, b) ∈ L.map fun y : FPYield => (y.1.1, y.2.1)) ↔
        0 < a ∧ a ≤ b ∧ a * b = (nN : Int)) ∧
    (∃ L, factor_pairs (nN : Int) (pfsZof pfsN) true fuel = some L ∧
      (L.map fun y : FPYield => (y.1.1, y.2.1)).Nodup ∧
      ∀ a b : Int, ((a, b) ∈ L.map fun y : FPYield => (y.1.1, y.2.1)) ↔
        0 < a ∧ a * b = (nN : Int)) ∧
    ((factor_pairs 12 (pfsZof [(2, 2), (3, 1)]) false 6).map
        (fun L => L.map fun y : FPYield => (y.1.1, y.2.1)) =
      some [(1, 12), (2, 6), (3, 4)]) := by
  have hpos : ∀ pm ∈ pfsN, 0 < pm.1 := fun pm h => (hprime pm h).pos
  have hposZ : ∀ pm ∈ pfsZof pfsN, 0 < pm.1 := by
    intro pm hpm
    obtain ⟨q, hq, rfl⟩ := List.mem_map.1 hpm
    show (0 : Int) < ((q.1 : Nat) : Int)
    exact_mod_cast hpos q hq
  have hneN : pfsN ≠ [] := by
    rintro rfl
    rw [List.map_nil, List.prod_nil] at hn
    omega
  have hne : pfsZof pfsN ≠ [] := by
    intro h
    exact hneN (List.map_eq_nil_iff.1 h)
  have hnZ : ((nN : Nat) : Int) = ((pfsZof pfsN).map fun pm => pm.1 ^ pm.2).prod := by
    rw [prodPow_pfsZof, ← hn]
  have hn2 : (2 : Int) ≤ (nN : Nat) := by exact_mod_cast h2
  refine ⟨fun _ _ _ => rfl, fun _ _ _ => rfl, ?_, ?_, by decide⟩
  · refine ⟨_, factor_pairs_eq (pfsZof pfsN) hposZ hne _ hn2 hnZ false fuel hfuel, ?_, ?_⟩
    · exact nodup_proj_flat pfsN hprime hsort false
    · intro a b
      rw [mem_proj_flat]
      constructor
      · rintro ⟨k, hk, hcond, hP⟩
        have hch := (pair_char pfsN hprime hsort nN hn a b).1 ⟨k, hk, hP⟩
        refine ⟨hch.1, ?_, hch.2⟩
        rcases hcond with h | h
        · cases h
        · have ha : a = aVal (pfsZof pfsN) (decodeVec (pfsZof pfsN) k) :=
            congrArg Prod.fst hP
          have hb : b = 1 * bVal (pfsZof pfsN) (decodeVec (pfsZof pfsN) k) :=
            congrArg Prod.snd hP
          rw [ha, hb]
          exact h
      · rintro ⟨ha, hle, hab⟩
        obtain ⟨k, hk, hP⟩ := (pair_char pfsN hprime hsort nN hn a b).2 ⟨ha, hab⟩
        refine ⟨k, hk, Or.inr ?_, hP⟩
        have h1 : a = aVal (pfsZof pfsN) (decodeVec (pfsZof pfsN) k) :=
          congrArg Prod.fst hP
        have h2' : b = 1 * bVal (pfsZof pfsN) (decodeVec (pfsZof pfsN) k) :=
          congrArg Prod.snd hP
        rw [← h1, ← h2']
        exact hle
  · refine ⟨_, factor_pairs_eq (pfsZof pfsN) hposZ hne _ hn2 hnZ true fuel hfuel, ?_, ?_⟩
    · exact nodup_proj_flat pfsN hprime hsort true
    · intro a b
      rw [mem_proj_flat]
      constructor
      · rintro ⟨k, hk, _, hP⟩
        exact (pair_char pfsN hprime hsort nN hn a b).1 ⟨k, hk, hP⟩
      · intro h
        obtain ⟨k, hk, hP⟩ := (pair_char pfsN hprime hsort nN hn a b).2 h
        exact ⟨k, hk, Or.inl rfl, hP⟩


/-- Witness for `claim_C7` at `n = 12` with factorization `2^2 * 3`. -/
theorem claim_C7_witness :
    (factor_pairs 12 (pfsZof [(2, 2), (3, 1)]) false 6).map
        (fun L => L.map fun y : FPYield => (y.1.1, y.2.1)) =
      some [(1, 12), (2, 6), (3, 4)] :=
  (claim_C7 12 [(2, 2), (3, 1)] (by decide) (by decide) (by decide) (by decide)
    6 (by decide)).2.2.2.2

/-- C8: for `n ≥ 1` with its correct factorization, `factors(n)` is
sorted strictly ascending (hence no duplicates), starts with 1, ends
with `n`, and has length equal to the product of `(exponent + 1)` over
the factorization; concretely `factors(28) = [1,2,4,7,14,28]`. -/
theorem claim_C8 (nN : Nat) (pfsN : List (Nat × Nat))
    (hprime : ∀ pm ∈ pfsN, Nat.Prime pm.1)
    (hsort : pfsN.Pairwise fun x y => x.1 < y.1)
    (hn : nN = (pfsN.map fun pm => pm.1 ^ pm.2).prod)
    (h2 : 2 ≤ nN) (fuel : Nat) (hfuel : totalCount (pfsZof pfsN) ≤ fuel) :
    (∀ (pfs' : List (Int × Nat)) (f : Nat), factors 1 pfs' f = some [1]) ∧
    (∃ l, factors (nN : Int) (pfsZof pfsN) fuel = some l ∧
      l.Pairwise (· < ·) ∧ l.head? = some 1 ∧ l.getLast? = some ((nN : Int)) ∧
      l.length = (pfsN.map fun pm => pm.2 + 1).prod) ∧
    (factors 28 (pfsZof [(2, 2), (7, 1)]) 6 = some [1, 2, 4, 7, 14, 28]) := by
  have hpos : ∀ pm ∈ pfsN, 0 < pm.1 := fun pm h => (hprime pm h).pos
  have hposZ : ∀ pm ∈ pfsZof pfsN, 0 < pm.1 := by
    intro pm hpm
    obtain ⟨q, hq, rfl⟩ := List.mem_map.1 hpm
    show (0 : Int) < ((q.1 : Nat) : Int)
    exact_mod_cast hpos q hq
  have hnpos : 0 < nN := by omega
  have hneN : pfsN ≠ [] := by
    rintro rfl
    rw [List.map_nil, List.prod_nil] at hn
    omega
  have hne : pfsZof pfsN ≠ [] := fun h => hneN (List.map_eq_nil_iff.1 h)
  have hnZ : ((nN : Nat) : Int) =
      ((pfsZof pfsN).map fun pm => pm.1 ^ pm.2).prod := by
    rw [prodPow_pfsZof, ← hn]
  have hn2 : (2 : Int) ≤ (nN : Nat) := by exact_mod_cast h2
  refine ⟨fun _ _ => rfl, ?_, by decide⟩
  have hrun := factor_pairs_eq (pfsZof pfsN) hposZ hne _ hn2 hnZ true fuel hfuel
  have hAlist : (((List.range' 0 (totalCount (pfsZof pfsN))).flatMap fun k =>
      fpYield true (encodeVec (pfsZof pfsN) (decodeVec (pfsZof pfsN) k))
        (aVal (pfsZof pfsN) (decodeVec (pfsZof pfsN) k))
        (1 * bVal (pfsZof pfsN) (decodeVec (pfsZof pfsN) k))).map
        (fun y : FPYield => y.1.1)) =
      (List.range' 0 (totalCount (pfsZof pfsN))).map
        (fun k => aVal (pfsZof pfsN) (decodeVec (pfsZof pfsN) k)) := by
    rw [List.map_flatMap]
    rw [show (fun k => ((fpYield true
        (encodeVec (pfsZof pfsN) (decodeVec (pfsZof pfsN) k))
        (aVal (pfsZof pfsN) (decodeVec (pfsZof pfsN) k))
        (1 * bVal (pfsZof pfsN) (decodeVec (pfsZof pfsN) k))).map
        (fun y : FPYield => y.1.1))) =
      fun k => [aVal (pfsZof pfsN) (decodeVec (pfsZof pfsN) k)] from
        funext fun k => rfl]
    exact flatMap_single _ _
  have hmemA : ∀ x : Int, (x ∈ (List.range' 0 (totalCount (pfsZof pfsN))).map
      (fun k => aVal (pfsZof pfsN) (decodeVec (pfsZof pfsN) k))) ↔
      ∃ k, k < totalCount (pfsZof pfsN) ∧
        x = aVal (pfsZof pfsN) (decodeVec (pfsZof pfsN) k) := by
    intro x
    rw [List.mem_map]
    constructor
    · rintro ⟨k, hk, rfl⟩
      exact ⟨k, by have := (List.mem_range'_1.1 hk).2; omega, rfl⟩
    · rintro ⟨k, hk, rfl⟩
      exact ⟨k, List.mem_range'_1.2 ⟨by omega, by omega⟩, rfl⟩
  have hndA : ((List.range' 0 (totalCount (pfsZof pfsN))).map
      (fun k => aVal (pfsZof pfsN) (decodeVec (pfsZof pfsN) k))).Nodup := by
    refine List.Nodup.map_on ?_ (List.nodup_range' 0 (totalCount (pfsZof pfsN)))
    intro x hx y hy hxy
    have hbx := (List.mem_range'_1.1 hx).2
    have hby := (List.mem_range'_1.1 hy).2
    rw [aVal_pfsZof, aVal_pfsZof] at hxy
    have : aValN pfsN (decodeVec (pfsZof pfsN) x) =
        aValN pfsN (decodeVec (pfsZof pfsN) y) := by exact_mod_cast hxy
    exact aValN_decode_inj pfsN hprime hsort x y (by omega) (by omega) this
  have hboundsA : ∀ x : Int, (∃ k, k < totalCount (pfsZof pfsN) ∧
      x = aVal (pfsZof pfsN) (decodeVec (pfsZof pfsN) k)) →
      1 ≤ x ∧ x ≤ ((nN : Nat) : Int) := by
    rintro x ⟨k, hk, rfl⟩
    rw [aVal_pfsZof]
    have h1 : 0 < aValN pfsN (decodeVec (pfsZof pfsN) k) := aValN_pos pfsN hpos _
    have h2' : aValN pfsN (decodeVec (pfsZof pfsN) k) ≤ nN := by
      refine Nat.le_of_dvd hnpos ?_
      rw [hn]
      exact ⟨bValN pfsN (decodeVec (pfsZof pfsN) k),
        (aValN_mul_bValN pfsN k).symm⟩
    constructor
    · exact_mod_cast h1
    · exact_mod_cast h2'
  refine ⟨((List.range' 0 (totalCount (pfsZof pfsN))).map
      (fun k => aVal (pfsZof pfsN) (decodeVec (pfsZof pfsN) k))).insertionSort
        (· ≤ ·), ?_, ?_, ?_, ?_, ?_⟩
  · unfold factors
    rw [hrun, Option.map_some', hAlist]
  all_goals {
    have hle : (((List.range' 0 (totalCount (pfsZof pfsN))).map
        (fun k => aVal (pfsZof pfsN) (decodeVec (pfsZof pfsN) k))).insertionSort
          (· ≤ ·)).Pairwise (· ≤ ·) :=
      List.sorted_insertionSort (· ≤ ·) _
    have hperm := List.perm_insertionSort (fun a b : Int => a ≤ b)
      ((List.range' 0 (totalCount (pfsZof pfsN))).map
        (fun k => aVal (pfsZof pfsN) (decodeVec (pfsZof pfsN) k)))
    have hnd := hperm.symm.nodup hndA
    have hmem : ∀ x : Int, (x ∈ ((List.range' 0 (totalCount (pfsZof pfsN))).map
        (fun k => aVal (pfsZof pfsN) (decodeVec (pfsZof pfsN) k))).insertionSort
          (· ≤ ·)) ↔
        ∃ k, k < totalCount (pfsZof pfsN) ∧
          x = aVal (pfsZof pfsN) (decodeVec (pfsZof pfsN) k) :=
      fun x => hperm.mem_iff.trans (hmemA x)
    first
    | exact List.Sorted.lt_of_le hle hnd
    | · -- head
        obtain ⟨t1, ht1, hv1⟩ := aValN_decode_surj pfsN hprime hsort 1 (one_dvd _)
        refine head_eq_of_sorted_mem _ hle 1 ((hmem 1).2 ⟨t1, ht1, ?_⟩)
          (fun x hx => (hboundsA x ((hmem x).1 hx)).1)
        rw [aVal_pfsZof, hv1, Nat.cast_one]
    | · -- last
        obtain ⟨tn, htn, hvn⟩ := aValN_decode_surj pfsN hprime hsort
          ((pfsN.map fun pm => pm.1 ^ pm.2).prod) dvd_rfl
        refine getLast_eq_of_sorted_mem _ hle ((nN : Nat) : Int)
          ((hmem _).2 ⟨tn, htn, ?_⟩)
          (fun x hx => (hboundsA x ((hmem x).1 hx)).2)
        rw [aVal_pfsZof, hvn, ← hn]
    | · -- length
        rw [hperm.length_eq, List.length_map, List.length_range',
          totalCount_pfsZof]
  }


/-- Witness for `claim_C8` at `n = 28` with factorization `2^2 * 7`. -/
theorem claim_C8_witness :
    factors 28 (pfsZof [(2, 2), (7, 1)]) 6 = some [1, 2, 4, 7, 14, 28] :=
  (claim_C8 28 [(2, 2), (7, 1)] (by decide) (by decide) (by decide) (by decide)
    6 (by decide)).2.2

end CodeJamLib
